import Mathlib

/-!
# Verification of the `clvm_rs` Python wheel (`wheel/python/clvm_rs`)

Shallow embedding of the pure-Python CLVM support code:

* `ser.py`    — canonical serializer (`sexp_to_bytes`) and stream
  deserializer (`sexp_from_stream` / `_atom_from_stream`);
* `de.py`     — indexed parse (`deserialize_as_tuples` /
  `_atom_size_from_cursor`);
* `casts.py`  — integer/atom conversions (`int_from_bytes`, `int_to_bytes`);
* `tree_hash.py` — the non-recursive, memoizing `sha256_treehash`;
* `curry_and_treehash.py` and `program.py` — `curry`, `uncurry`,
  `curried_values_tree_hash`, `curry_and_treehash`;
* the evaluator entry point `run_serialized_program` (implemented in the
  native extension, modelled here from the specification).

Bytes are modelled as `List Nat` (each element a byte value); Python
`bytes` slicing semantics (silent truncation) is mirrored with
`List.take`/`List.drop`.  Code that raises `ValueError` is embedded as
`Option`-returning functions.  The explicit work-stack loops of the
source (used to avoid host-stack recursion) are embedded as the
structural recursions they implement; comments at each definition map
the stack operations onto the recursion.

SHA-256 itself comes from Python's `hashlib`, outside this repository;
every definition and theorem that needs it is parametric in an arbitrary
digest function `sha : List Nat → List Nat`.
-/

/-- Byte strings are lists of byte values. -/
abbrev Bytes := List Nat

/-- A CLVM tree: an atom (byte string) or a pair, as in `clvm_storage.py`
(`CLVMStorage`: `atom : Optional[bytes]`, `pair : Optional[Tuple[...]]`). -/
inductive Node where
  | atom : Bytes → Node
  | pair : Node → Node → Node
deriving DecidableEq, Repr

/-- Number of nodes in a tree. -/
def Node.count : Node → Nat
  | .atom _ => 1
  | .pair l r => 1 + l.count + r.count

/-- Python `blob[s:e]` on a byte string: slice with silent truncation. -/
def sliceB (blob : Bytes) (s e : Nat) : Bytes :=
  (blob.drop s).take (e - s)

/-- Big-endian reading of a byte string as an unsigned integer:
Python `int.from_bytes(size_blob, "big")`. -/
def beNat (l : Bytes) : Nat :=
  l.foldl (fun a b => a * 256 + b) 0

/-! ## Serializer (`ser.py`) -/

/-- `ser.py::MAX_SINGLE_BYTE`. -/
def MAX_SINGLE_BYTE : Nat := 0x7F

/-- `ser.py::CONS_BOX_MARKER`. -/
def CONS_BOX_MARKER : Nat := 0xFF

/-- `ser.py::size_blob_for_blob`, computing the size-prefix bytes for an
atom of the given length; the final `raise ValueError("blob too long")`
becomes `none`. -/
def size_blob_for_blob (blob : Bytes) : Option Bytes :=
  let size := blob.length
  if size < 0x40 then
    some [0x80 ||| size]
  else if size < 0x2000 then
    some [0xC0 ||| (size >>> 8), (size >>> 0) &&& 0xFF]
  else if size < 0x100000 then
    some [0xE0 ||| (size >>> 16), (size >>> 8) &&& 0xFF, (size >>> 0) &&& 0xFF]
  else if size < 0x8000000 then
    some [0xF0 ||| (size >>> 24), (size >>> 16) &&& 0xFF,
          (size >>> 8) &&& 0xFF, (size >>> 0) &&& 0xFF]
  else if size < 0x400000000 then
    some [0xF8 ||| (size >>> 32), (size >>> 24) &&& 0xFF,
          (size >>> 16) &&& 0xFF, (size >>> 8) &&& 0xFF, (size >>> 0) &&& 0xFF]
  else
    none

/-- `ser.py::atom_to_byte_iterator`: full serialization of one atom
(the concatenation of the bytes the generator yields). -/
def atom_to_byte_iterator (as_atom : Bytes) : Option Bytes :=
  if as_atom.length = 0 then
    some [0x80]
  else if as_atom.length = 1 ∧ as_atom.headI ≤ MAX_SINGLE_BYTE then
    some as_atom
  else
    match size_blob_for_blob as_atom with
    | none => none
    | some sb => some (sb ++ as_atom)

/-- `ser.py::sexp_to_bytes` (via `sexp_to_byte_iterator`).  The source
iterates with an explicit `todo_stack`: popping a pair yields `0xFF` and
pushes the two children (right first), which is exactly the recursion
below; popping an atom yields `atom_to_byte_iterator`. -/
def sexp_to_bytes : Node → Option Bytes
  | .atom a => atom_to_byte_iterator a
  | .pair l r =>
    match sexp_to_bytes l, sexp_to_bytes r with
    | some lb, some rb => some (CONS_BOX_MARKER :: (lb ++ rb))
    | _, _ => none

/-! ## Stream deserializer (`ser.py`) -/

/-- The `while b & bit_mask` loop in `ser.py::_atom_from_stream` (and in
`de.py::_atom_size_from_cursor`), unrolled on a fuel argument: the mask
starts at `0x80` and halves each iteration, so the loop runs at most 8
times.  Returns `(bit_count, cleared_byte)`. -/
def clear_leading_bits_f : Nat → Nat → Nat → Nat → Nat × Nat
  | 0, b, _, bit_count => (bit_count, b)
  | fuel + 1, b, bit_mask, bit_count =>
    if b &&& bit_mask ≠ 0 then
      clear_leading_bits_f fuel (b &&& (0xFF ^^^ bit_mask)) (bit_mask >>> 1) (bit_count + 1)
    else
      (bit_count, b)

/-- The leading-set-bits loop entered as in the source:
`bit_count = 0`, `bit_mask = 0x80` (8 iterations always suffice). -/
def clear_leading_bits (b : Nat) (bit_mask : Nat) (bit_count : Nat) : Nat × Nat :=
  clear_leading_bits_f 8 b bit_mask bit_count

/-- `ser.py::_atom_from_stream`: `b` is the already-consumed first byte,
`f` the remaining stream.  Returns the atom together with the rest of
the stream; `raise ValueError` becomes `none`. -/
def atom_from_stream (f : Bytes) (b : Nat) : Option (Node × Bytes) :=
  if b = 0x80 then
    some (.atom [], f)
  else if b ≤ MAX_SINGLE_BYTE then
    some (.atom [b], f)
  else
    let bc := clear_leading_bits b 0x80 0
    let size_blob : Bytes :=
      if bc.1 > 1 then bc.2 :: f.take (bc.1 - 1) else [bc.2]
    if bc.1 > 1 ∧ (f.take (bc.1 - 1)).length ≠ bc.1 - 1 then
      none
    else
      let f1 := if bc.1 > 1 then f.drop (bc.1 - 1) else f
      let size := beNat size_blob
      if size ≥ 0x400000000 then
        none
      else if (f1.take size).length ≠ size then
        none
      else
        some (.atom (f1.take size), f1.drop size)

/-- `ser.py::sexp_from_stream`.  The source drives an explicit
`op_stack` of `_op_read_sexp` / `_op_cons` operations; pushing
`[_op_cons, _op_read_sexp, _op_read_sexp]` on a `0xFF` byte realizes
the two recursive reads followed by the cons below.  `fuel` bounds the
recursion depth; `fuel = length of input + 1` always suffices. -/
def sexp_from_stream : Nat → Bytes → Option (Node × Bytes)
  | 0, _ => none
  | _ + 1, [] => none
  | fuel + 1, b :: t =>
    if b = CONS_BOX_MARKER then
      match sexp_from_stream fuel t with
      | none => none
      | some (l, r1) =>
        match sexp_from_stream fuel r1 with
        | none => none
        | some (r, r2) => some (.pair l r, r2)
    else
      atom_from_stream t b

/-- Parse a byte string from its start, with always-sufficient fuel. -/
def parseBytes (b : Bytes) : Option (Node × Bytes) :=
  sexp_from_stream (b.length + 1) b

/-- Every atom in the tree is below the serializer's `2^34` length cap
(`size_blob_for_blob` fails above it; the stream deserializer never
produces larger atoms). -/
def atoms_bounded : Node → Bool
  | .atom a => a.length < 0x400000000
  | .pair l r => atoms_bounded l && atoms_bounded r

/-! ## Integer casts (`casts.py`) -/

/-- `casts.py::int_from_bytes`: big-endian two's-complement reading of an
atom (Python `int.from_bytes(blob, "big", signed=True)`; empty is 0). -/
def int_from_bytes (blob : Bytes) : Int :=
  if blob.length = 0 then 0
  else (beNat blob : Int) -
    (if blob.headI ≥ 0x80 then (2 : Int) ^ (8 * blob.length) else 0)

/-- Python `int.bit_length()` of a non-negative integer, on a fuel
argument for structural recursion (`fuel = n` always suffices). -/
def bit_length_f : Nat → Nat → Nat
  | 0, _ => 0
  | fuel + 1, n => if n = 0 then 0 else bit_length_f fuel (n / 2) + 1

/-- Python `int.bit_length()` of a non-negative integer. -/
def bit_length (n : Nat) : Nat :=
  bit_length_f n n

/-- Fixed-width big-endian byte string of `v % 256^w`
(Python `int.to_bytes(w, "big")` after reduction mod `2^(8w)`). -/
def natToBEBytes : Nat → Nat → Bytes
  | 0, _ => []
  | w + 1, v => natToBEBytes w (v / 256) ++ [v % 256]

/-- The `while len(r) > 1 and r[0] == (0xFF if r[1] & 0x80 else 0)` strip
loop of `casts.py::int_to_bytes`. -/
def strip_leading : Bytes → Bytes
  | b0 :: b1 :: rest =>
    if b0 = (if b1 &&& 0x80 ≠ 0 then 0xFF else 0) then strip_leading (b1 :: rest)
    else b0 :: b1 :: rest
  | l => l

/-- `casts.py::int_to_bytes`: minimal big-endian two's-complement
encoding.  `v.bit_length()` in Python is the bit length of `|v|`;
`v.to_bytes(byte_count, "big", signed=True)` is the base-256 expansion
of `v mod 2^(8*byte_count)`. -/
def int_to_bytes (v : Int) : Bytes :=
  if v = 0 then []
  else
    let byte_count := (bit_length v.natAbs + 8) / 8
    strip_leading (natToBEBytes byte_count (v % ((2 : Int) ^ (8 * byte_count))).toNat)

/-! ## Tree hash (`tree_hash.py`)

`Treehasher` is instantiated in the source as `CHIA_TREEHASHER` with
`atom_prefix = 01`, `pair_prefix = 02`; those single prefix bytes are
inlined below.  The digest function (`hashlib.sha256`) is a parameter
`sha`. -/

/-- `Treehasher.shatree_atom` of `CHIA_TREEHASHER`:
`sha256(0x01 || atom)`. -/
def shatree_atom (sha : Bytes → Bytes) (atom : Bytes) : Bytes :=
  sha (0x01 :: atom)

/-- `Treehasher.shatree_pair` of `CHIA_TREEHASHER`:
`sha256(0x02 || left_hash || right_hash)`. -/
def shatree_pair (sha : Bytes → Bytes) (left_hash right_hash : Bytes) : Bytes :=
  sha (0x02 :: (left_hash ++ right_hash))

/-- The reference recursive tree hash, written from the spec:
`H(atom a) = sha256(0x01 || a)`; `H(pair(l,r)) = sha256(0x02 || H(l) || H(r))`. -/
def H_spec (sha : Bytes → Bytes) : Node → Bytes
  | .atom a => sha (0x01 :: a)
  | .pair l r => sha (0x02 :: (H_spec sha l ++ H_spec sha r))

/-- The two operations pushed on the `op_stack` of
`Treehasher.sha256_treehash`. -/
inductive THOp where
  | handle_obj : THOp
  | handle_pair : THOp
deriving DecidableEq

/-- State of the non-recursive `sha256_treehash`: the three stacks plus
the per-node memo (`_cached_sha256_treehash` attributes, modelled as a
map from nodes to cached digests; object identity on the Python heap
implies structural equality). -/
structure THState where
  obj_stack : List Node
  hash_stack : List Bytes
  op_stack : List THOp
  cache : Node → Option Bytes

/-- The driver loop of `Treehasher.sha256_treehash`: pop one operation
per step.  `handle_obj` pops an object: on a cache hit pushes the cached
digest; an atom is hashed (and cached); a pair re-pushes itself and its
children with `handle_pair, handle_obj, handle_obj` (the rightmost
pushed operation runs first).  `handle_pair` pops the two child hashes
(left on top), pushes the pair hash and caches it on the popped object.
`fuel` bounds the number of iterations; `2 * count` always suffices. -/
def sha256_treehash_run (sha : Bytes → Bytes) : Nat → THState → Option Bytes
  | _, ⟨_, hash_stack, [], _⟩ => hash_stack.head?
  | 0, _ => none
  | fuel + 1, ⟨obj_stack, hash_stack, op :: ops, cache⟩ =>
    match op with
    | .handle_obj =>
      match obj_stack with
      | [] => none
      | obj :: objs =>
        match cache obj with
        | some r => sha256_treehash_run sha fuel ⟨objs, r :: hash_stack, ops, cache⟩
        | none =>
          match obj with
          | .atom a =>
            let r := shatree_atom sha a
            sha256_treehash_run sha fuel
              ⟨objs, r :: hash_stack, ops, fun u => if u = obj then some r else cache u⟩
          | .pair p0 p1 =>
            sha256_treehash_run sha fuel
              ⟨p1 :: p0 :: obj :: objs, hash_stack,
               .handle_obj :: .handle_obj :: .handle_pair :: ops, cache⟩
    | .handle_pair =>
      match hash_stack, obj_stack with
      | p0 :: p1 :: hs, obj :: objs =>
        let r := shatree_pair sha p0 p1
        sha256_treehash_run sha fuel
          ⟨objs, r :: hs, ops, fun u => if u = obj then some r else cache u⟩
      | _, _ => none

/-- `Treehasher.sha256_treehash`, entered with `obj_stack = [t]`,
`op_stack = [handle_obj]`, empty `hash_stack`, and the ambient cache;
returns `hash_stack[0]` (the loop exits with exactly one digest on the
hash stack, so the head of the list — the stack top — is that
element). -/
def sha256_treehash (sha : Bytes → Bytes) (cache : Node → Option Bytes) (t : Node) :
    Option Bytes :=
  sha256_treehash_run sha (2 * t.count) ⟨[t], [], [.handle_obj], cache⟩

/-- The ambient cache never lies: every cached digest is the recursive
tree hash of its node.  (The empty cache satisfies this vacuously; the
machine preserves it.) -/
def soundCache (sha : Bytes → Bytes) (cache : Node → Option Bytes) : Prop :=
  ∀ u h, cache u = some h → h = H_spec sha u

/-! ## Indexed parse (`de.py`) -/

/-- A `(start, end, extra)` triple of `deserialize_as_tuples`. -/
abbrev Triple := Nat × Nat × Nat

/-- `de.py::_atom_size_from_cursor`: returns
`(size_of_prefix, new_cursor)`; `raise ValueError("end of stream")`
becomes `none`.  Python's truncating slice `blob[cursor+1:cursor+bit_count]`
is `sliceB`.  Note: there is no atom-size cap here — only the final
bounds check `new_cursor > len(blob)`. -/
def atom_size_from_cursor (blob : Bytes) (cursor : Nat) : Option (Nat × Nat) :=
  let b := blob.getD cursor 0
  if b = 0x80 then some (1, cursor + 1)
  else if b ≤ MAX_SINGLE_BYTE then some (0, cursor + 1)
  else
    let bc := clear_leading_bits b 0x80 0
    let size_blob : Bytes :=
      if bc.1 > 1 then bc.2 :: sliceB blob (cursor + 1) (cursor + bc.1) else [bc.2]
    let size := beNat size_blob
    let new_cursor := cursor + size + bc.1
    if new_cursor > blob.length then none
    else some (bc.1, new_cursor)

/-- The `parse_obj` operation of `de.py::deserialize_as_tuples`.  The
source's `op_stack` discipline pushes
`[save_cursor(index), parse_obj, save_index(index), parse_obj]` on a
`0xFF` byte, so execution order is: parse the left child, `save_index`
(store the right child's pre-order index as the third field), parse the
right child, `save_cursor` (store the end offset and, when hashing, the
pair hash from the two child hashes).  That sequencing is the recursion
below; `fuel` bounds the nesting depth. -/
def parse_obj (sha : Bytes → Bytes) (cth : Bool) (blob : Bytes) :
    Nat → Nat → List Triple → List Bytes → Option (List Triple × List Bytes × Nat)
  | 0, _, _, _ => none
  | fuel + 1, cursor, ol, hl =>
    if cursor ≥ blob.length then none
    else if blob.getD cursor 0 = CONS_BOX_MARKER then
      let index := ol.length
      match parse_obj sha cth blob fuel (cursor + 1) (ol ++ [(cursor, 0, 0)])
          (if cth then hl ++ [[]] else hl) with
      | none => none
      | some (ol1, hl1, c1) =>
        let t1 := ol1.getD index (0, 0, 0)
        let ol2 := ol1.set index (t1.1, t1.2.1, ol1.length)
        match parse_obj sha cth blob fuel c1 ol2 hl1 with
        | none => none
        | some (ol3, hl2, c2) =>
          let t3 := ol3.getD index (0, 0, 0)
          let ol4 := ol3.set index (t3.1, c2, t3.2.2)
          let hl3 :=
            if cth then
              hl2.set index (shatree_pair sha (hl2.getD (index + 1) []) (hl2.getD t3.2.2 []))
            else hl2
          some (ol4, hl3, c2)
    else
      match atom_size_from_cursor blob cursor with
      | none => none
      | some (off, nc) =>
        let hl1 := if cth then hl ++ [shatree_atom sha (sliceB blob (cursor + off) nc)] else hl
        some (ol ++ [(cursor, nc, off)], hl1, nc)

/-- `de.py::deserialize_as_tuples` (the pure-Python path): runs
`parse_obj` from the given cursor with empty lists and returns the
triple list plus, when requested, the parallel tree-hash list. -/
def deserialize_as_tuples (sha : Bytes → Bytes) (blob : Bytes) (cursor : Nat)
    (calculate_tree_hash : Bool) : Option (List Triple × Option (List Bytes)) :=
  match parse_obj sha calculate_tree_hash blob (blob.length + 1) cursor [] [] with
  | none => none
  | some (ol, hl, _) => some (ol, if calculate_tree_hash then some hl else none)

/-- The nodes of a tree in pre-order (the order `deserialize_as_tuples`
appends triples). -/
def preorderNodes : Node → List Node
  | .atom a => [.atom a]
  | .pair l r => .pair l r :: (preorderNodes l ++ preorderNodes r)

/-- The claimed layout of the triple block a subtree contributes:
`TriplesOk blob base s e n T` says the node `n` occupies `blob[s:e)`,
its triples are `T` with first pre-order index `base`, and
* an atom's triple is `(s, e, off)` where `off` is the size-prefix
  length reported by `_atom_size_from_cursor` and the payload is
  `blob[s+off:e]`;
* a pair's triple is `(s, e, base + 1 + |T₁|)`: the left child is at
  pre-order index `base + 1` spanning `blob[s+1:m)`, the right child at
  pre-order index `base + 1 + |T₁|` (the field `extra`) spanning
  `blob[m:e)`, under the `0xFF` cons marker at `blob[s]`. -/
inductive TriplesOk (blob : Bytes) : Nat → Nat → Nat → Node → List Triple → Prop
  | atom (base s off nc : Nat) :
      s < blob.length →
      blob.getD s 0 ≠ CONS_BOX_MARKER →
      atom_size_from_cursor blob s = some (off, nc) →
      TriplesOk blob base s nc (.atom (sliceB blob (s + off) nc)) [(s, nc, off)]
  | pair (base s m e : Nat) (l r : Node) (T1 T2 : List Triple) :
      s < blob.length →
      blob.getD s 0 = CONS_BOX_MARKER →
      TriplesOk blob (base + 1) (s + 1) m l T1 →
      TriplesOk blob (base + 1 + T1.length) m e r T2 →
      TriplesOk blob base s e (.pair l r) ((s, e, base + 1 + T1.length) :: (T1 ++ T2))

/-! ## Curry and uncurry (`program.py`, `curry_and_treehash.py`)

The dialect constants (`chia_dialect.py` / `program.py`): `Q_KW = 01`,
`A_KW = 02`, `C_KW = 04`, `ONE = 01`, `NULL` empty. -/

/-- The two legal path characters of `at.py::at` (`f` and `r`; any
other character raises `ValueError` in the source and never occurs in
the fixed paths used by `uncurry`). -/
inductive PathC where
  | f : PathC
  | r : PathC
deriving DecidableEq

/-- `at.py::at`: follow a path of `f`/`r` characters, `None` when a pair
is needed but an atom is found. -/
def at_path (obj : Node) : List PathC → Option Node
  | [] => some obj
  | c :: cs =>
    match obj with
    | .atom _ => none
    | .pair l r =>
      match c with
      | .f => at_path l cs
      | .r => at_path r cs

/-- The `fixed_args` accumulation of `Program.curry` /
`CurryTreehasher.curry`: starting from `1`, each argument in reverse
order wraps the accumulator as `[C_KW, (Q_KW, arg), fixed_args]`
(a nil-terminated three-element list, with the Python ints `4`, `1`
cast to the single-byte atoms `04` and `01`). -/
def fixed_args_chain (args : List Node) : Node :=
  args.foldr
    (fun arg acc =>
      .pair (.atom [0x04]) (.pair (.pair (.atom [0x01]) arg) (.pair acc (.atom []))))
    (.atom [0x01])

/-- `Program.curry` / `CurryTreehasher.curry`: the final
`[A_KW, (Q_KW, mod), fixed_args]` (Python int `2` cast to atom `02`). -/
def curry (mod : Node) (args : List Node) : Node :=
  .pair (.atom [0x02])
    (.pair (.pair (.atom [0x01]) mod) (.pair (fixed_args_chain args) (.atom [])))

/-- The `while core != dialect.ONE` loop of `CurryTreehasher.uncurry` /
`Program.uncurry`: peel `(c (q . item) rest)` layers off the curried
environment, collecting the items; any shape violation aborts (the
caller then returns `(sexp, None)`).  The loop strictly descends into
the tree (`at_path_count_lt`), so `fuel = core.count` iterations always
suffice. -/
def uncurry_core_f : Nat → Node → Option (List Node)
  | 0, _ => none
  | fuel + 1, core =>
    if core = Node.atom [0x01] then some []
    else if at_path core [PathC.f] ≠ some (Node.atom [0x04]) ∨
        at_path core [PathC.r, PathC.f, PathC.f] ≠ some (Node.atom [0x01]) ∨
        at_path core [PathC.r, PathC.r, PathC.r] ≠ some (Node.atom []) then none
    else
      match at_path core [PathC.r, PathC.f, PathC.r], at_path core [PathC.r, PathC.r, PathC.f] with
      | some new_item, some rest => (uncurry_core_f fuel rest).map (fun l => new_item :: l)
      | _, _ => none

/-- `CurryTreehasher.uncurry` / `Program.uncurry`: returns
`(mod, some args)` for a valid curry and `(sexp, none)` otherwise. -/
def uncurry (sexp : Node) : Node × Option (List Node) :=
  if at_path sexp [PathC.f] ≠ some (Node.atom [0x02]) ∨
      at_path sexp [PathC.r, PathC.f, PathC.f] ≠ some (Node.atom [0x01]) ∨
      at_path sexp [PathC.r, PathC.r, PathC.r] ≠ some (Node.atom []) then (sexp, none)
  else
    match at_path sexp [PathC.r, PathC.f, PathC.r], at_path sexp [PathC.r, PathC.r, PathC.f] with
    | some uncurried_function, some core =>
      match uncurry_core_f core.count core with
      | some core_items => (uncurried_function, some core_items)
      | none => (sexp, none)
    | _, _ => (sexp, none)

/-- `CurryTreehasher.curried_values_tree_hash`: the hash of the curried
environment `E`, expanded as `(c . ((q . F) . (EXPANSION(R) . ())))`,
ending in `1`.  The cached keyword hashes of the source
(`c_kw_treehash`, `q_kw_treehash`, `null_treehash`, `one_treehash`)
are inlined. -/
def curried_values_tree_hash (sha : Bytes → Bytes) : List Bytes → Bytes
  | [] => shatree_atom sha [0x01]
  | a :: rest =>
    shatree_pair sha (shatree_atom sha [0x04])
      (shatree_pair sha
        (shatree_pair sha (shatree_atom sha [0x01]) a)
        (shatree_pair sha (curried_values_tree_hash sha rest) (shatree_atom sha [])))

/-- `CurryTreehasher.calculate_hash_of_quoted_mod_hash`: the hash of
`(q . MOD)` given the hash of `MOD`. -/
def calculate_hash_of_quoted_mod_hash (sha : Bytes → Bytes) (mod_hash : Bytes) : Bytes :=
  shatree_pair sha (shatree_atom sha [0x01]) mod_hash

/-- `CurryTreehasher.curry_and_treehash`: hash of the curried program
`(a . ((q . F) . (E . ())))` computed from hashes alone; the
`ValueError` on a hashed argument that is not 32 bytes becomes `none`. -/
def curry_and_treehash (sha : Bytes → Bytes) (hash_of_quoted_mod_hash : Bytes)
    (hashed_arguments : List Bytes) : Option Bytes :=
  if hashed_arguments.all (fun arg => arg.length = 32) then
    some (shatree_pair sha (shatree_atom sha [0x02])
      (shatree_pair sha hash_of_quoted_mod_hash
        (shatree_pair sha (curried_values_tree_hash sha hashed_arguments)
          (shatree_atom sha []))))
  else none

/-! ## Evaluator (spec §4.7)

`Program.run_with_cost` and `run_program.py` both delegate to
`run_serialized_program` from the native extension `clvm_rs.clvm_rs`,
whose code is not part of the Python wheel.  The machine below is
modelled from the spec: two stacks, one operation popped per step,
operator handlers drawn from a dispatch table. -/

/-- The `Bool` bits of an integer, least significant first (the last
entry is the top set bit), on a fuel argument (`fuel = n` suffices). -/
def lowBitsLE_f : Nat → Nat → List Bool
  | 0, _ => []
  | fuel + 1, n =>
    if n = 0 then [] else decide (n % 2 = 1) :: lowBitsLE_f fuel (n / 2)

/-- The bits of an integer, least significant first. -/
def lowBitsLE (n : Nat) : List Bool :=
  lowBitsLE_f n n

/-- Descend into the environment, `first` on a 0 bit and `rest` on a
1 bit; meeting an atom prematurely is a `PathIntoAtom` failure. -/
def pathDescend : Node → List Bool → Option Node
  | env, [] => some env
  | .atom _, _ :: _ => none
  | .pair l r, b :: bs => pathDescend (if b then r else l) bs

/-- Modelled from the spec: environment path lookup — "treat it as a
path integer ... for each bit from most-significant below the
terminator, descend into `first` on 0, `rest` on 1".  Path 0 yields
nil. -/
def pathLookup (a : Bytes) (env : Node) : Option Node :=
  let n := beNat a
  if n = 0 then some (.atom [])
  else pathDescend env (lowBitsLE n).dropLast.reverse

/-- Walk a nil-terminated operand list; a non-nil terminator is a
`BadOperandList` failure. -/
def argList : Node → Option (List Node)
  | .atom a => if a = [] then some [] else none
  | .pair f r => (argList r).map (fun l => f :: l)

/-- Modelled from the spec: the tagged instructions of the operation
stack — `Eval(node, env)`, `Apply(argcount, op)`, `SwapEval(prog)`,
plus the rescheduling marker used when the operator position is itself
a pair ("evaluate it first then re-schedule the call"). -/
inductive EvalOp where
  | eval : Node → Node → EvalOp
  | apply1 : Bytes → Nat → EvalOp
  | swapEval : Node → EvalOp
  | rescheduleOp : Node → Node → EvalOp
deriving DecidableEq

/-- Evaluator state: operation stack, value stack, running cost. -/
structure EvalState where
  ops : List EvalOp
  vals : List Node
  cost : Nat
deriving DecidableEq

/-- Modelled from the spec: the closed error taxonomy (restricted to the
kinds the modelled machine can produce). -/
inductive ErrKind where
  | badEncoding
  | pathIntoAtom
  | badOperandList
  | invalidOperator
  | costExceeded
  | internalError
deriving DecidableEq

/-- A run outcome: `(cost, result)` or a typed error with payload. -/
inductive Outcome where
  | ok : Nat → Node → Outcome
  | err : ErrKind → Option Node → Outcome
deriving DecidableEq

/-- Modelled from the spec: the operator dispatch table.  A handler maps
an opcode atom and the evaluated argument list to `(cost_delta,
result)`; `none` is an unknown opcode.  `apply_cost` is the cost charged
by the `a` (apply) form. -/
structure OpTable where
  handler : Bytes → List Node → Option (Nat × Node)
  apply_cost : Nat

/-- Modelled from the spec: one step of the evaluator driver loop
(§4.7), popping a single operation.  `q = 0x01` quotes, `a = 0x02` is
the tail-call form scheduling `Eval(new_env, env)` then
`SwapEval(prog)`; other atom operators schedule their arguments in
reverse order followed by `Apply`; a pair in operator position is
evaluated first and then re-scheduled.  Costs are charged before the
operation commits; exceeding `max_cost` is terminal. -/
def evalStep (tbl : OpTable) (max_cost : Nat) (st : EvalState) : EvalState ⊕ Outcome :=
  match st.ops with
  | [] =>
    match st.vals with
    | [v] => .inr (.ok st.cost v)
    | _ => .inr (.err .internalError none)
  | op :: rest =>
    match op with
    | .eval node env =>
      match node with
      | .atom a =>
        match pathLookup a env with
        | some v => .inl ⟨rest, v :: st.vals, st.cost⟩
        | none => .inr (.err .pathIntoAtom (some node))
      | .pair f r =>
        match f with
        | .atom opa =>
          if opa = [0x01] then
            .inl ⟨rest, r :: st.vals, st.cost⟩
          else if opa = [0x02] then
            match r with
            | .pair prog (.pair new_env (.atom nilb)) =>
              if nilb = [] then
                if st.cost + tbl.apply_cost > max_cost then
                  .inr (.err .costExceeded none)
                else
                  .inl ⟨.eval new_env env :: .swapEval prog :: rest, st.vals,
                        st.cost + tbl.apply_cost⟩
              else .inr (.err .badOperandList (some r))
            | _ => .inr (.err .badOperandList (some r))
          else
            match argList r with
            | some args =>
              .inl ⟨args.map (fun x => .eval x env) ++ (.apply1 opa args.length :: rest),
                    st.vals, st.cost⟩
            | none => .inr (.err .badOperandList (some r))
        | .pair _ _ =>
          .inl ⟨.eval f env :: .rescheduleOp r env :: rest, st.vals, st.cost⟩
    | .rescheduleOp operands env =>
      match st.vals with
      | v :: vs =>
        match v with
        | .atom opa =>
          match argList operands with
          | some args =>
            .inl ⟨args.map (fun x => .eval x env) ++ (.apply1 opa args.length :: rest),
                  vs, st.cost⟩
          | none => .inr (.err .badOperandList (some operands))
        | .pair _ _ => .inr (.err .invalidOperator (some v))
      | [] => .inr (.err .internalError none)
    | .swapEval prog =>
      match st.vals with
      | env2 :: vs => .inl ⟨.eval prog env2 :: rest, vs, st.cost⟩
      | [] => .inr (.err .internalError none)
    | .apply1 opa argc =>
      if st.vals.length < argc then .inr (.err .internalError none)
      else
        match tbl.handler opa ((st.vals.take argc).reverse) with
        | some (delta, r) =>
          if st.cost + delta > max_cost then .inr (.err .costExceeded none)
          else .inl ⟨rest, r :: st.vals.drop argc, st.cost + delta⟩
        | none => .inr (.err .invalidOperator (some (.atom opa)))

/-- Modelled from the spec: a complete run of the evaluator from a
state to an outcome (the driver loop until the operation stack
empties or an error aborts). -/
inductive EvalRuns (tbl : OpTable) (max_cost : Nat) : EvalState → Outcome → Prop where
  | done : ∀ st o, evalStep tbl max_cost st = .inr o → EvalRuns tbl max_cost st o
  | more : ∀ st st2 o, evalStep tbl max_cost st = .inl st2 → EvalRuns tbl max_cost st2 o →
      EvalRuns tbl max_cost st o

/-- Modelled from the spec: the entry point `run_serialized_program`
(native extension, not under the Python wheel): parse the program and
environment blobs, then run the evaluator from
`op_stack = [Eval(program, env)]`. -/
inductive run_serialized_program (tbl : OpTable) (program_blob args_blob : Bytes)
    (max_cost : Nat) : Outcome → Prop where
  | parse_program_failed :
      parseBytes program_blob = none →
      run_serialized_program tbl program_blob args_blob max_cost (.err .badEncoding none)
  | parse_args_failed : ∀ p rp,
      parseBytes program_blob = some (p, rp) →
      parseBytes args_blob = none →
      run_serialized_program tbl program_blob args_blob max_cost (.err .badEncoding none)
  | runs : ∀ p rp e re o,
      parseBytes program_blob = some (p, rp) →
      parseBytes args_blob = some (e, re) →
      EvalRuns tbl max_cost ⟨[.eval p e], [], 0⟩ o →
      run_serialized_program tbl program_blob args_blob max_cost o

/-- The minimality condition on atoms, written from the spec: zero is
the empty atom; no leading `0x00` byte when the following byte has its
high bit clear, and no leading `0xFF` byte when the following byte has
its high bit set.  (`[0]` is excluded: zero's canonical encoding is the
empty atom.) -/
def is_minimal_encoding : Bytes → Bool
  | [] => true
  | [b] => b != 0
  | b0 :: b1 :: _ => if b1 &&& 0x80 = 0 then b0 != 0 else b0 != 0xFF

/-! ## Theorems -/

/-! ### Byte-string arithmetic helpers -/

theorem beNat_aux (l : Bytes) :
    ∀ acc : Nat, l.foldl (fun a b => a * 256 + b) acc =
      acc * 256 ^ l.length + l.foldl (fun a b => a * 256 + b) 0 := by
  induction l with
  | nil => intro acc; simp
  | cons x xs ih =>
    intro acc
    simp only [List.foldl_cons, List.length_cons]
    rw [ih (acc * 256 + x), ih (0 * 256 + x)]
    ring

theorem beNat_cons (x : Nat) (xs : Bytes) :
    beNat (x :: xs) = x * 256 ^ xs.length + beNat xs := by
  simp only [beNat, List.foldl_cons]
  rw [beNat_aux xs (0 * 256 + x)]
  ring

theorem beNat_append_singleton (l : Bytes) (b : Nat) :
    beNat (l ++ [b]) = beNat l * 256 + b := by
  induction l with
  | nil => simp [beNat]
  | cons x xs ih =>
    rw [List.cons_append, beNat_cons, ih, beNat_cons]
    simp only [List.length_append, List.length_cons, List.length_nil]
    ring

theorem beNat_lt (l : Bytes) (hv : ∀ x ∈ l, x < 256) : beNat l < 256 ^ l.length := by
  induction l with
  | nil => simp [beNat]
  | cons x xs ih =>
    rw [beNat_cons]
    have hx : x < 256 := hv x (by simp)
    have hxs : beNat xs < 256 ^ xs.length := ih (fun y hy => hv y (by simp [hy]))
    have : x * 256 ^ xs.length ≤ 255 * 256 ^ xs.length :=
      Nat.mul_le_mul_right _ (by omega)
    simp only [List.length_cons, pow_succ]
    omega

theorem beNat_inj (l1 l2 : Bytes) (hlen : l1.length = l2.length)
    (h1 : ∀ x ∈ l1, x < 256) (h2 : ∀ x ∈ l2, x < 256)
    (h : beNat l1 = beNat l2) : l1 = l2 := by
  induction l1 generalizing l2 with
  | nil =>
    cases l2 with
    | nil => rfl
    | cons y ys => simp at hlen
  | cons x xs ih =>
    cases l2 with
    | nil => simp at hlen
    | cons y ys =>
      simp only [List.length_cons, Nat.add_right_cancel_iff] at hlen
      rw [beNat_cons, beNat_cons, hlen] at h
      have hblt1 : beNat xs < 256 ^ ys.length := hlen ▸ beNat_lt xs (fun a ha => h1 a (by simp [ha]))
      have hblt2 : beNat ys < 256 ^ ys.length := beNat_lt ys (fun a ha => h2 a (by simp [ha]))
      have hxy : x = y := by
        rcases Nat.lt_trichotomy x y with hlt | heq | hgt
        · exfalso
          have : (x + 1) * 256 ^ ys.length ≤ y * 256 ^ ys.length :=
            Nat.mul_le_mul_right _ (by omega)
          nlinarith
        · exact heq
        · exfalso
          have : (y + 1) * 256 ^ ys.length ≤ x * 256 ^ ys.length :=
            Nat.mul_le_mul_right _ (by omega)
          nlinarith
      subst hxy
      have hbe : beNat xs = beNat ys := by omega
      rw [ih ys hlen (fun a ha => h1 a (by simp [ha])) (fun a ha => h2 a (by simp [ha])) hbe]

theorem natToBEBytes_length (w v : Nat) : (natToBEBytes w v).length = w := by
  induction w generalizing v with
  | zero => simp [natToBEBytes]
  | succ w ih => simp [natToBEBytes, ih]

theorem natToBEBytes_lt (w v : Nat) : ∀ x ∈ natToBEBytes w v, x < 256 := by
  induction w generalizing v with
  | zero => simp [natToBEBytes]
  | succ w ih =>
    intro x hx
    simp only [natToBEBytes, List.mem_append, List.mem_singleton] at hx
    rcases hx with hx | hx
    · exact ih _ x hx
    · subst hx; exact Nat.mod_lt _ (by omega)

theorem natToBEBytes_beNat (w v : Nat) : beNat (natToBEBytes w v) = v % 256 ^ w := by
  induction w generalizing v with
  | zero => simp [natToBEBytes, beNat, Nat.mod_one]
  | succ w ih =>
    rw [natToBEBytes, beNat_append_singleton, ih]
    have h256 : (256 : Nat) ^ (w + 1) = 256 * 256 ^ w := by
      rw [pow_succ]; ring
    rw [h256, Nat.mod_mul]
    ring

theorem headI_append_of_ne_nil (l1 l2 : Bytes) (h : l1 ≠ []) :
    (l1 ++ l2).headI = l1.headI := by
  cases l1 with
  | nil => exact absurd rfl h
  | cons x xs => rfl

theorem natToBEBytes_headI (w v : Nat) (hw : 0 < w) :
    (natToBEBytes w v).headI = v / 256 ^ (w - 1) % 256 := by
  induction w generalizing v with
  | zero => omega
  | succ w ih =>
    rw [natToBEBytes]
    cases w with
    | zero => simp [natToBEBytes]
    | succ w2 =>
      have hne : natToBEBytes (w2 + 1) (v / 256) ≠ [] := by
        intro hcon
        have := natToBEBytes_length (w2 + 1) (v / 256)
        rw [hcon] at this
        simp at this
      rw [headI_append_of_ne_nil _ _ hne]
      rw [ih (v / 256) (by omega)]
      simp only [Nat.add_sub_cancel]
      rw [Nat.div_div_eq_div_mul]
      congr 2
      rw [pow_succ]
      ring

/-! ### Integer casts (C6) -/

theorem bit_length_f_lt : ∀ fuel n, n ≤ fuel → n < 2 ^ bit_length_f fuel n := by
  intro fuel
  induction fuel with
  | zero => intro n h; interval_cases n; simp [bit_length_f]
  | succ f ih =>
    intro n h
    rw [bit_length_f]
    by_cases h0 : n = 0
    · simp [h0]
    · rw [if_neg h0]
      have hrec := ih (n / 2) (by omega)
      rw [pow_succ]
      omega

theorem bit_length_lt (n : Nat) : n < 2 ^ bit_length n :=
  bit_length_f_lt n n (Nat.le_refl n)

theorem two_pow_8w (w : Nat) : (2 : Int) ^ (8 * w) = ((256 ^ w : Nat) : Int) := by
  push_cast
  rw [pow_mul]
  norm_num

theorem int_128_pow (w : Nat) (hw : 0 < w) :
    ((128 * 256 ^ (w - 1) : Nat) : Int) = 2 ^ (8 * w - 1) := by
  push_cast
  have h1 : (256 : Int) ^ (w - 1) = 2 ^ (8 * (w - 1)) := by
    rw [pow_mul]
    norm_num
  have h2 : (128 : Int) = 2 ^ 7 := by norm_num
  rw [h1, h2, ← pow_add]
  congr 1
  omega

/-- Two's-complement correctness: reading back the fixed-width encoding
of an in-range integer recovers it. -/
theorem int_from_bytes_natToBEBytes (w : Nat) (v : Int) (hw : 0 < w)
    (hlo : -(2 ^ (8 * w - 1)) ≤ v) (hhi : v < 2 ^ (8 * w - 1)) :
    int_from_bytes (natToBEBytes w (v % ((2 : Int) ^ (8 * w))).toNat) = v := by
  have hM : (2 : Int) ^ (8 * w) = ((256 ^ w : Nat) : Int) := two_pow_8w w
  have hMpos : (0 : Int) < 2 ^ (8 * w) := by positivity
  have hhalf : (2 : Int) ^ (8 * w) = 2 * 2 ^ (8 * w - 1) := by
    rw [← pow_succ']
    congr 1
    omega
  have h128 : ((128 * 256 ^ (w - 1) : Nat) : Int) = 2 ^ (8 * w - 1) := int_128_pow w hw
  set N : Nat := (v % ((2 : Int) ^ (8 * w))).toNat with hN
  have hmodlt : v % ((2 : Int) ^ (8 * w)) < 2 ^ (8 * w) := Int.emod_lt_of_pos v hMpos
  have hmodge : (0 : Int) ≤ v % ((2 : Int) ^ (8 * w)) := Int.emod_nonneg v (by positivity)
  have hNlt : (N : Int) < 2 ^ (8 * w) := by
    rw [hN, Int.toNat_of_nonneg hmodge]
    exact hmodlt
  have hlen : (natToBEBytes w N).length = w := natToBEBytes_length w N
  have hbe : beNat (natToBEBytes w N) = N := by
    rw [natToBEBytes_beNat]
    apply Nat.mod_eq_of_lt
    have := hNlt
    rw [hM] at this
    exact_mod_cast this
  have hhead : (natToBEBytes w N).headI = N / 256 ^ (w - 1) % 256 :=
    natToBEBytes_headI w N hw
  rw [int_from_bytes, hlen, if_neg (by omega), hbe, hhead]
  by_cases hv : 0 ≤ v
  · have hmod : v % ((2 : Int) ^ (8 * w)) = v := Int.emod_eq_of_lt hv (by omega)
    have hNv : (N : Int) = v := by rw [hN, hmod, Int.toNat_of_nonneg hv]
    have hsmall : N < 128 * 256 ^ (w - 1) := by
      have : (N : Int) < ((128 * 256 ^ (w - 1) : Nat) : Int) := by
        rw [hNv, h128]
        exact hhi
      exact_mod_cast this
    have hdivlt : N / 256 ^ (w - 1) < 128 := by
      apply Nat.div_lt_of_lt_mul
      omega
    have hmodeq : N / 256 ^ (w - 1) % 256 = N / 256 ^ (w - 1) :=
      Nat.mod_eq_of_lt (by omega)
    rw [hmodeq, if_neg (by omega)]
    omega
  · push_neg at hv
    have hmod : v % ((2 : Int) ^ (8 * w)) = v + 2 ^ (8 * w) := by
      have h1 : (v + 2 ^ (8 * w) * 1) % ((2 : Int) ^ (8 * w)) = v % ((2 : Int) ^ (8 * w)) :=
        Int.add_mul_emod_self_left v (2 ^ (8 * w)) 1
      have h2 : (0 : Int) ≤ v + 2 ^ (8 * w) := by omega
      have h3 : v + 2 ^ (8 * w) < 2 ^ (8 * w) := by omega
      have h4 : v + 2 ^ (8 * w) * 1 = v + 2 ^ (8 * w) := by ring
      rw [h4] at h1
      rw [← h1, Int.emod_eq_of_lt h2 h3]
    have hNv : (N : Int) = v + 2 ^ (8 * w) := by
      rw [hN, hmod, Int.toNat_of_nonneg (by omega)]
    have hbig : 128 * 256 ^ (w - 1) ≤ N := by
      have : ((128 * 256 ^ (w - 1) : Nat) : Int) ≤ (N : Int) := by
        rw [hNv, h128]
        omega
      exact_mod_cast this
    have hdivge : 128 ≤ N / 256 ^ (w - 1) := by
      rw [Nat.le_div_iff_mul_le (by positivity)]
      omega
    have hdivlt : N / 256 ^ (w - 1) < 256 := by
      apply Nat.div_lt_of_lt_mul
      have hNM : N < 256 ^ w := by
        have : (N : Int) < ((256 ^ w : Nat) : Int) := by rw [← hM]; exact hNlt
        exact_mod_cast this
      have h256 : (256 : Nat) ^ w = 256 ^ (w - 1) * 256 := by
        rw [← pow_succ]
        congr 1
        omega
      omega
    rw [Nat.mod_eq_of_lt hdivlt, if_pos (by omega)]
    omega

set_option maxRecDepth 4000 in
theorem and128_iff : ∀ b < 256, (b &&& 0x80 ≠ 0 ↔ 128 ≤ b) := by decide

/-- Unfolded form of `int_from_bytes` on a non-empty byte string. -/
theorem int_from_bytes_cons (b0 : Nat) (tl : Bytes) :
    int_from_bytes (b0 :: tl) =
      ((beNat (b0 :: tl) : Int)) -
        (if 128 ≤ b0 then (2 : Int) ^ (8 * (tl.length + 1)) else 0) := by
  rw [int_from_bytes, if_neg (by simp)]
  rfl

/-- One firing of the strip loop preserves the two's-complement value. -/
theorem int_from_bytes_strip_step (b0 b1 : Nat) (rest : Bytes)
    (hb1 : b1 < 256)
    (hcond : b0 = if b1 &&& 0x80 ≠ 0 then 0xFF else 0) :
    int_from_bytes (b0 :: b1 :: rest) = int_from_bytes (b1 :: rest) := by
  have hP : ((256 ^ (rest.length + 1) : Nat) : Int) = 2 ^ (8 * (rest.length + 1)) :=
    (two_pow_8w (rest.length + 1)).symm
  have hP2 : (2 : Int) ^ (8 * (rest.length + 1 + 1)) = 256 * 2 ^ (8 * (rest.length + 1)) := by
    rw [← hP, ← two_pow_8w]
    have : 8 * (rest.length + 1 + 1) = 8 + 8 * (rest.length + 1) := by omega
    rw [this, pow_add]
    norm_num
  rw [int_from_bytes_cons, int_from_bytes_cons]
  rw [beNat_cons b0 (b1 :: rest)]
  simp only [List.length_cons]
  by_cases hb : b1 &&& 0x80 ≠ 0
  · rw [if_pos hb] at hcond
    have hb128 : 128 ≤ b1 := (and128_iff b1 hb1).mp hb
    subst hcond
    rw [if_pos (by omega), if_pos (by simpa using hb128), hP2]
    push_cast
    rw [← hP]
    push_cast
    ring
  · rw [if_neg hb] at hcond
    have hb128 : ¬(128 ≤ b1) := fun hc => hb ((and128_iff b1 hb1).mpr hc)
    subst hcond
    rw [if_neg (by omega), if_neg (by simpa using hb128)]
    push_cast
    ring

theorem int_from_bytes_strip (l : Bytes) (hv : ∀ x ∈ l, x < 256) :
    int_from_bytes (strip_leading l) = int_from_bytes l := by
  induction l with
  | nil => rfl
  | cons b0 tl ih =>
    cases tl with
    | nil => rfl
    | cons b1 rest =>
      rw [strip_leading]
      by_cases hb : b1 &&& 0x80 ≠ 0
      · rw [if_pos hb]
        by_cases hc : b0 = 0xFF
        · rw [if_pos hc]
          rw [ih (fun x hx => hv x (by simp [hx]))]
          exact (int_from_bytes_strip_step b0 b1 rest (hv b1 (by simp))
            (by rw [if_pos hb]; exact hc)).symm
        · rw [if_neg hc]
      · rw [if_neg hb]
        by_cases hc : b0 = 0
        · rw [if_pos hc]
          rw [ih (fun x hx => hv x (by simp [hx]))]
          exact (int_from_bytes_strip_step b0 b1 rest (hv b1 (by simp))
            (by rw [if_neg hb]; exact hc)).symm
        · rw [if_neg hc]

theorem strip_leading_subset (l : Bytes) : ∀ x ∈ strip_leading l, x ∈ l := by
  induction l with
  | nil => simp [strip_leading]
  | cons b0 tl ih =>
    cases tl with
    | nil => simp [strip_leading]
    | cons b1 rest =>
      intro x hx
      rw [strip_leading] at hx
      split at hx
      · split at hx
        · exact List.mem_cons_of_mem _ (ih x hx)
        · exact hx
      · split at hx
        · exact List.mem_cons_of_mem _ (ih x hx)
        · exact hx

theorem strip_leading_ne_nil (l : Bytes) (h : l ≠ []) : strip_leading l ≠ [] := by
  induction l with
  | nil => exact absurd rfl h
  | cons b0 tl ih =>
    cases tl with
    | nil => simp [strip_leading]
    | cons b1 rest =>
      rw [strip_leading]
      split
      · split
        · exact ih (by simp)
        · simp
      · split
        · exact ih (by simp)
        · simp

/-- The strip loop stops in a minimal configuration (unless the result
is the single byte `0`, which only happens for value zero). -/
theorem strip_leading_minimal (l : Bytes) (h : l ≠ []) (h0 : strip_leading l ≠ [0]) :
    is_minimal_encoding (strip_leading l) = true := by
  induction l with
  | nil => exact absurd rfl h
  | cons b0 tl ih =>
    cases tl with
    | nil =>
      have : strip_leading [b0] = [b0] := rfl
      rw [this] at h0 ⊢
      simp only [is_minimal_encoding, bne_iff_ne, ne_eq, decide_eq_true_eq]
      intro hb
      exact h0 (by rw [hb])
    | cons b1 rest =>
      rw [strip_leading] at h0 ⊢
      by_cases hbne : b1 &&& 0x80 ≠ 0
      · rw [if_pos hbne] at h0 ⊢
        by_cases hc : b0 = 0xFF
        · rw [if_pos hc] at h0 ⊢
          exact ih (by simp) h0
        · rw [if_neg hc] at h0 ⊢
          simp only [is_minimal_encoding, if_neg hbne]
          simp [hc]
      · rw [if_neg hbne] at h0 ⊢
        by_cases hc : b0 = 0
        · rw [if_pos hc] at h0 ⊢
          exact ih (by simp) h0
        · rw [if_neg hc] at h0 ⊢
          simp only [is_minimal_encoding, if_pos (not_ne_iff.mp hbne)]
          simp [hc]

theorem int_two_pow_split (m : Nat) (hm : 0 < m) :
    (2 : Int) ^ (8 * m) = 2 * 2 ^ (8 * m - 1) := by
  rw [← pow_succ']
  congr 1
  omega

/-- `int_to_bytes` on a nonzero argument, unfolded. -/
theorem int_to_bytes_spec (i : Int) (h0 : i ≠ 0) :
    int_to_bytes i = strip_leading (natToBEBytes ((bit_length i.natAbs + 8) / 8)
      ((i % ((2 : Int) ^ (8 * ((bit_length i.natAbs + 8) / 8)))).toNat)) := by
  simp only [int_to_bytes, if_neg h0]

theorem int_roundtrip_val (i : Int) : int_from_bytes (int_to_bytes i) = i := by
  by_cases h0 : i = 0
  · subst h0
    decide
  · rw [int_to_bytes_spec i h0]
    set bc := (bit_length i.natAbs + 8) / 8 with hbc
    have hbcpos : 0 < bc := by omega
    have habs : i.natAbs < 2 ^ bit_length i.natAbs := bit_length_lt _
    have hble : bit_length i.natAbs ≤ 8 * bc - 1 := by omega
    have habsI : (i.natAbs : Int) < 2 ^ (8 * bc - 1) := by
      have h1 : ((i.natAbs : Nat) : Int) < ((2 ^ bit_length i.natAbs : Nat) : Int) := by
        exact_mod_cast habs
      have h2 : ((2 ^ bit_length i.natAbs : Nat) : Int) ≤ ((2 ^ (8 * bc - 1) : Nat) : Int) := by
        exact_mod_cast Nat.pow_le_pow_right (by omega) hble
      calc (i.natAbs : Int) < ((2 ^ bit_length i.natAbs : Nat) : Int) := h1
        _ ≤ ((2 ^ (8 * bc - 1) : Nat) : Int) := h2
        _ = 2 ^ (8 * bc - 1) := by push_cast; ring
    have hsign := Int.natAbs_eq i
    have hlo : -(2 ^ (8 * bc - 1)) ≤ i := by
      rcases hsign with hs | hs <;> omega
    have hhi : i < 2 ^ (8 * bc - 1) := by
      rcases hsign with hs | hs <;> omega
    rw [int_from_bytes_strip _ (fun x hx => natToBEBytes_lt _ _ x hx)]
    exact int_from_bytes_natToBEBytes bc i hbcpos hlo hhi

theorem int_from_bytes_single_zero : int_from_bytes [0] = 0 := by decide

theorem int_to_bytes_minimal_val (i : Int) :
    is_minimal_encoding (int_to_bytes i) = true := by
  by_cases h0 : i = 0
  · subst h0
    decide
  · have hne : int_to_bytes i ≠ [] := by
      rw [int_to_bytes_spec i h0]
      apply strip_leading_ne_nil
      intro hcon
      have hl := natToBEBytes_length ((bit_length i.natAbs + 8) / 8)
        ((i % ((2 : Int) ^ (8 * ((bit_length i.natAbs + 8) / 8)))).toNat)
      rw [hcon] at hl
      simp at hl
    have hnz : int_to_bytes i ≠ [0] := by
      intro hcon
      have := int_roundtrip_val i
      rw [hcon, int_from_bytes_single_zero] at this
      exact h0 this.symm
    rw [int_to_bytes_spec i h0] at hne hnz ⊢
    exact strip_leading_minimal _
      (by intro hcon; exact hne (by rw [hcon]; rfl)) hnz

theorem int_to_bytes_valid (i : Int) : ∀ x ∈ int_to_bytes i, x < 256 := by
  by_cases h0 : i = 0
  · subst h0
    intro x hx
    simp [int_to_bytes] at hx
  · rw [int_to_bytes_spec i h0]
    intro x hx
    exact natToBEBytes_lt _ _ x (strip_leading_subset _ x hx)

/-- Two's-complement range of an `n`-byte string. -/
theorem int_from_bytes_range (b0 : Nat) (tl : Bytes) (hv : ∀ x ∈ b0 :: tl, x < 256) :
    -(2 ^ (8 * (tl.length + 1) - 1)) ≤ int_from_bytes (b0 :: tl) ∧
      int_from_bytes (b0 :: tl) < 2 ^ (8 * (tl.length + 1) - 1) := by
  have h128 : ((128 * 256 ^ tl.length : Nat) : Int) = 2 ^ (8 * (tl.length + 1) - 1) := by
    have := int_128_pow (tl.length + 1) (by omega)
    simpa using this
  have hbe := beNat_cons b0 tl
  have hbetl : beNat tl < 256 ^ tl.length := beNat_lt tl (fun x hx => hv x (by simp [hx]))
  have hb0 : b0 < 256 := hv b0 (by simp)
  have hfull : ((256 ^ (tl.length + 1) : Nat) : Int) = 2 ^ (8 * (tl.length + 1)) :=
    (two_pow_8w (tl.length + 1)).symm
  have hbeall : beNat (b0 :: tl) < 256 ^ (tl.length + 1) :=
    beNat_lt (b0 :: tl) hv
  have hsplit := int_two_pow_split (tl.length + 1) (by omega)
  rw [int_from_bytes_cons]
  by_cases hb : 128 ≤ b0
  · rw [if_pos hb]
    constructor
    · have hge : 128 * 256 ^ tl.length ≤ beNat (b0 :: tl) := by
        have := Nat.mul_le_mul_right (256 ^ tl.length) hb
        omega
      have hgeI : ((128 * 256 ^ tl.length : Nat) : Int) ≤ (beNat (b0 :: tl) : Int) := by
        exact_mod_cast hge
      omega
    · have : (beNat (b0 :: tl) : Int) < ((256 ^ (tl.length + 1) : Nat) : Int) := by
        exact_mod_cast hbeall
      omega
  · rw [if_neg hb]
    constructor
    · have : (0 : Int) ≤ (beNat (b0 :: tl) : Int) := by positivity
      have hpos : (0 : Int) < 2 ^ (8 * (tl.length + 1) - 1) := by positivity
      omega
    · have hlt : beNat (b0 :: tl) < 128 * 256 ^ tl.length := by
        have h1 : b0 * 256 ^ tl.length ≤ 127 * 256 ^ tl.length :=
          Nat.mul_le_mul_right _ (by omega)
        omega
      have : (beNat (b0 :: tl) : Int) < ((128 * 256 ^ tl.length : Nat) : Int) := by
        exact_mod_cast hlt
      omega

/-- A minimal encoding of length ≥ 2 denotes a value outside the range
of one byte fewer. -/
theorem minimal_value_large (b0 b1 : Nat) (rest : Bytes)
    (hv : ∀ x ∈ b0 :: b1 :: rest, x < 256)
    (hmin : is_minimal_encoding (b0 :: b1 :: rest) = true) :
    2 ^ (8 * (rest.length + 1) - 1) ≤ int_from_bytes (b0 :: b1 :: rest) ∨
      int_from_bytes (b0 :: b1 :: rest) < -(2 ^ (8 * (rest.length + 1) - 1)) := by
  have hb0 : b0 < 256 := hv b0 (by simp)
  have hb1 : b1 < 256 := hv b1 (by simp)
  have h128 : ((128 * 256 ^ rest.length : Nat) : Int) = 2 ^ (8 * (rest.length + 1) - 1) := by
    have := int_128_pow (rest.length + 1) (by omega)
    simpa using this
  have hbe1 := beNat_cons b0 (b1 :: rest)
  have hbe2 := beNat_cons b1 rest
  have hber : beNat rest < 256 ^ rest.length :=
    beNat_lt rest (fun x hx => hv x (by simp [hx]))
  have hQ : (256 : Nat) ^ (rest.length + 1) = 256 * 256 ^ rest.length := by
    rw [pow_succ]; ring
  have hfull2 : ((256 ^ (rest.length + 2) : Nat) : Int) = 2 ^ (8 * (rest.length + 2)) :=
    (two_pow_8w (rest.length + 2)).symm
  have hfI : (2 : Int) ^ (8 * (rest.length + 1 + 1)) =
      256 * ((256 ^ (rest.length + 1) : Nat) : Int) := by
    have hx : ((256 ^ (rest.length + 2) : Nat) : Int) =
        256 * ((256 ^ (rest.length + 1) : Nat) : Int) := by
      push_cast
      rw [pow_succ]
      ring
    rw [show rest.length + 1 + 1 = rest.length + 2 from rfl, ← hx, hfull2]
  have hPg : ((128 * 256 ^ rest.length : Nat) : Int) ≤
      ((256 ^ (rest.length + 1) : Nat) : Int) := by
    have hx : (128 * 256 ^ rest.length : Nat) ≤ 256 ^ (rest.length + 1) := by
      rw [hQ]
      have := Nat.pos_pow_of_pos rest.length (show 0 < 256 by omega)
      nlinarith
    exact_mod_cast hx
  rw [int_from_bytes_cons]
  simp only [List.length_cons] at *
  by_cases hb : 128 ≤ b0
  · -- negative value
    rw [if_pos hb]
    right
    by_cases hbf : b0 = 0xFF
    · -- minimality forces the next byte below 0x80
      have hcl : b1 &&& 0x80 = 0 := by
        by_contra hnc
        simp only [is_minimal_encoding, if_neg hnc, bne_iff_ne, ne_eq,
          decide_eq_true_eq] at hmin
        exact hmin hbf
      have hb1lt : b1 < 128 := by
        by_contra hc
        exact (and128_iff b1 hb1).mpr (by omega) hcl
      have hlt : beNat (b1 :: rest) < 128 * 256 ^ rest.length := by
        have h1 : b1 * 256 ^ rest.length ≤ 127 * 256 ^ rest.length :=
          Nat.mul_le_mul_right _ (by omega)
        omega
      have hltI : (beNat (b1 :: rest) : Int) < ((128 * 256 ^ rest.length : Nat) : Int) := by
        exact_mod_cast hlt
      have hbeI : (beNat (b0 :: b1 :: rest) : Int) =
          255 * ((256 ^ (rest.length + 1) : Nat) : Int) + (beNat (b1 :: rest) : Int) := by
        rw [hbe1, hbf]
        push_cast
        ring
      rw [hfI]
      omega
    · -- top byte at most 0xFE
      have hble : b0 ≤ 254 := by omega
      have h2 : beNat (b1 :: rest) < 256 ^ (rest.length + 1) :=
        beNat_lt (b1 :: rest) (fun x hx => hv x (by simp [hx]))
      have hbound : beNat (b0 :: b1 :: rest) < 255 * 256 ^ (rest.length + 1) := by
        have h1 : b0 * 256 ^ (rest.length + 1) ≤ 254 * 256 ^ (rest.length + 1) :=
          Nat.mul_le_mul_right _ (by omega)
        simp only [List.length_cons] at hbe1 h2
        omega
      have hboundI : (beNat (b0 :: b1 :: rest) : Int) <
          255 * ((256 ^ (rest.length + 1) : Nat) : Int) := by
        exact_mod_cast hbound
      rw [hfI]
      omega
  · -- non-negative value
    rw [if_neg hb]
    left
    by_cases hb0z : b0 = 0
    · -- minimality forces the next byte at or above 0x80
      have hset : ¬(b1 &&& 0x80 = 0) := by
        by_contra hnc
        simp only [is_minimal_encoding, if_pos hnc, bne_iff_ne, ne_eq,
          decide_eq_true_eq] at hmin
        exact hmin hb0z
      have hb1ge : 128 ≤ b1 := (and128_iff b1 hb1).mp hset
      have hge : 128 * 256 ^ rest.length ≤ beNat (b0 :: b1 :: rest) := by
        have h1 : 128 * 256 ^ rest.length ≤ b1 * 256 ^ rest.length :=
          Nat.mul_le_mul_right _ hb1ge
        omega
      have : ((128 * 256 ^ rest.length : Nat) : Int) ≤ (beNat (b0 :: b1 :: rest) : Int) := by
        exact_mod_cast hge
      omega
    · -- leading byte at least 1
      have hge : 256 ^ (rest.length + 1) ≤ beNat (b0 :: b1 :: rest) := by
        have h1 : 1 * 256 ^ (rest.length + 1) ≤ b0 * 256 ^ (rest.length + 1) :=
          Nat.mul_le_mul_right _ (by omega)
        omega
      have hx : 128 * 256 ^ rest.length ≤ beNat (b0 :: b1 :: rest) := by
        rw [hQ] at hge
        omega
      have hxI : ((128 * 256 ^ rest.length : Nat) : Int) ≤ (beNat (b0 :: b1 :: rest) : Int) := by
        exact_mod_cast hx
      omega

/-- Fixed-length injectivity of the two's-complement reading. -/
theorem int_from_bytes_inj_same_len (a b : Bytes) (hlen : a.length = b.length)
    (hva : ∀ x ∈ a, x < 256) (hvb : ∀ x ∈ b, x < 256)
    (h : int_from_bytes a = int_from_bytes b) : a = b := by
  cases a with
  | nil =>
    cases b with
    | nil => rfl
    | cons y ys => simp at hlen
  | cons a0 tla =>
    cases b with
    | nil => simp at hlen
    | cons b0 tlb =>
      simp only [List.length_cons, Nat.add_right_cancel_iff] at hlen
      rw [int_from_bytes_cons, int_from_bytes_cons, hlen] at h
      have hba : beNat (a0 :: tla) < 256 ^ (tlb.length + 1) := by
        rw [← hlen]
        simpa using beNat_lt (a0 :: tla) hva
      have hbb : beNat (b0 :: tlb) < 256 ^ (tlb.length + 1) := by
        simpa using beNat_lt (b0 :: tlb) hvb
      have hfull : ((256 ^ (tlb.length + 1) : Nat) : Int) = 2 ^ (8 * (tlb.length + 1)) :=
        (two_pow_8w (tlb.length + 1)).symm
      have hbaI : (beNat (a0 :: tla) : Int) < 2 ^ (8 * (tlb.length + 1)) := by
        rw [← hfull]
        exact_mod_cast hba
      have hbbI : (beNat (b0 :: tlb) : Int) < 2 ^ (8 * (tlb.length + 1)) := by
        rw [← hfull]
        exact_mod_cast hbb
      have hbeq : beNat (a0 :: tla) = beNat (b0 :: tlb) := by
        by_cases ha : 128 ≤ a0 <;> by_cases hb : 128 ≤ b0
        · rw [if_pos ha, if_pos hb] at h
          have : (beNat (a0 :: tla) : Int) = (beNat (b0 :: tlb) : Int) := by omega
          exact_mod_cast this
        · rw [if_pos ha, if_neg hb] at h
          have hnn : (0 : Int) ≤ (beNat (b0 :: tlb) : Int) := by positivity
          omega
        · rw [if_neg ha, if_pos hb] at h
          have hnn : (0 : Int) ≤ (beNat (a0 :: tla) : Int) := by positivity
          omega
        · rw [if_neg ha, if_neg hb] at h
          have : (beNat (a0 :: tla) : Int) = (beNat (b0 :: tlb) : Int) := by omega
          exact_mod_cast this
      exact beNat_inj _ _ (by simp [hlen]) hva hvb hbeq

/-- A minimal encoding cannot share its value with any shorter byte
string. -/
theorem minimal_shorter_ne (a b : Bytes)
    (hva : ∀ x ∈ a, x < 256) (hvb : ∀ x ∈ b, x < 256)
    (hmina : is_minimal_encoding a = true)
    (hlen : b.length < a.length) :
    int_from_bytes b ≠ int_from_bytes a := by
  cases a with
  | nil => simp at hlen
  | cons a0 tla =>
    cases tla with
    | nil =>
      have ha0 : a0 ≠ 0 := by
        simpa [is_minimal_encoding] using hmina
      have ha0lt : a0 < 256 := hva a0 (by simp)
      have hb0 : b = [] := by
        cases b with
        | nil => rfl
        | cons y ys => simp at hlen
      subst hb0
      have hvala : int_from_bytes [a0] = (a0 : Int) - (if 128 ≤ a0 then 256 else 0) := by
        rw [int_from_bytes_cons]
        norm_num [beNat_cons, beNat]
      intro hcon
      rw [hvala] at hcon
      have h0 : int_from_bytes [] = 0 := by decide
      rw [h0] at hcon
      split at hcon <;> omega
    | cons a1 rest =>
      have hlarge := minimal_value_large a0 a1 rest hva hmina
      intro hcon
      cases b with
      | nil =>
        have h0 : int_from_bytes [] = 0 := by decide
        rw [h0] at hcon
        have hpos : (0 : Int) < 2 ^ (8 * (rest.length + 1) - 1) := by positivity
        omega
      | cons b0 tlb =>
        have hrange := int_from_bytes_range b0 tlb hvb
        simp only [List.length_cons] at hlen
        have hmono : (2 : Int) ^ (8 * (tlb.length + 1) - 1) ≤
            2 ^ (8 * (rest.length + 1) - 1) := by
          apply pow_le_pow_right₀ (by norm_num)
          omega
        omega

/-- Minimal valid encodings are uniquely determined by their value. -/
theorem is_minimal_unique (a b : Bytes)
    (hva : ∀ x ∈ a, x < 256) (hvb : ∀ x ∈ b, x < 256)
    (hmina : is_minimal_encoding a = true) (hminb : is_minimal_encoding b = true)
    (h : int_from_bytes a = int_from_bytes b) : a = b := by
  rcases Nat.lt_trichotomy a.length b.length with hl | hl | hl
  · exact absurd h (minimal_shorter_ne b a hvb hva hminb hl)
  · exact int_from_bytes_inj_same_len a b hl hva hvb h
  · exact absurd h.symm (minimal_shorter_ne a b hva hvb hmina hl)

/-- C6: `int_from_bytes (int_to_bytes i) = i` for every integer;
`int_to_bytes i` is always the minimal big-endian two's-complement
encoding (zero is the empty atom, no redundant leading `0x00`/`0xFF`
byte); and on any atom already in minimal form, with byte values below
256, `int_to_bytes (int_from_bytes a) = a`. -/
theorem int_cast_roundtrip :
    (∀ i : Int, int_from_bytes (int_to_bytes i) = i) ∧
    (∀ i : Int, is_minimal_encoding (int_to_bytes i) = true) ∧
    (∀ a : Bytes, (∀ x ∈ a, x < 256) → is_minimal_encoding a = true →
      int_to_bytes (int_from_bytes a) = a) := by
  refine ⟨int_roundtrip_val, int_to_bytes_minimal_val, ?_⟩
  intro a hva hmina
  exact is_minimal_unique _ _ (int_to_bytes_valid _) hva
    (int_to_bytes_minimal_val _) hmina (int_roundtrip_val (int_from_bytes a))

/-- Witness for C6: the minimal-form inverse direction applies to the
one-byte atom `0x80` (value −128). -/
theorem int_cast_roundtrip_witness : int_to_bytes (int_from_bytes [0x80]) = [0x80] :=
  int_cast_roundtrip.2.2 [0x80] (by decide) (by decide)

/-! ### Serialization round trips (C1, C2, C3) -/

theorem and_255_eq_mod (x : Nat) : x &&& 0xFF = x % 256 := by
  have := Nat.and_pow_two_sub_one_eq_mod x 8
  norm_num at this
  exact this

theorem shiftRight_div (x n : Nat) : x >>> n = x / 2 ^ n :=
  Nat.shiftRight_eq_div_pow x n

/-- Fuel monotonicity of the stream deserializer. -/
theorem sexp_from_stream_mono (fuel : Nat) :
    ∀ s r, sexp_from_stream fuel s = some r →
      ∀ f2, fuel ≤ f2 → sexp_from_stream f2 s = some r := by
  induction fuel with
  | zero =>
    intro s r h
    simp [sexp_from_stream] at h
  | succ f ih =>
    intro s r h f2 hle
    match s with
    | [] => simp [sexp_from_stream] at h
    | b :: t =>
      obtain ⟨f3, rfl⟩ : ∃ f3, f2 = f3 + 1 := ⟨f2 - 1, by omega⟩
      rw [sexp_from_stream] at h ⊢
      by_cases hb : b = CONS_BOX_MARKER
      · rw [if_pos hb] at h ⊢
        match h1 : sexp_from_stream f t with
        | none => simp only [h1, reduceCtorEq] at h
        | some (l, r1) =>
          simp only [h1] at h
          simp only [ih t (l, r1) h1 f3 (by omega)]
          match h2 : sexp_from_stream f r1 with
          | none => simp only [h2, reduceCtorEq] at h
          | some (rr, r2) =>
            simp only [h2] at h
            simp only [ih r1 (rr, r2) h2 f3 (by omega)]
            exact h
      · rw [if_neg hb] at h ⊢
        exact h

set_option maxRecDepth 8000 in
theorem size1_facts : ∀ s < 0x40, 0 < s →
    ¬(0x80 ||| s) = 0xFF ∧ ¬(0x80 ||| s) = 0x80 ∧ ¬(0x80 ||| s ≤ 0x7F) ∧
      clear_leading_bits (0x80 ||| s) 0x80 0 = (1, s) := by decide

set_option maxRecDepth 8000 in
theorem size2_facts : ∀ h < 0x20,
    ¬(0xC0 ||| h) = 0xFF ∧ ¬(0xC0 ||| h) = 0x80 ∧ ¬(0xC0 ||| h ≤ 0x7F) ∧
      clear_leading_bits (0xC0 ||| h) 0x80 0 = (2, h) := by decide

set_option maxRecDepth 8000 in
theorem size3_facts : ∀ h < 0x10,
    ¬(0xE0 ||| h) = 0xFF ∧ ¬(0xE0 ||| h) = 0x80 ∧ ¬(0xE0 ||| h ≤ 0x7F) ∧
      clear_leading_bits (0xE0 ||| h) 0x80 0 = (3, h) := by decide

set_option maxRecDepth 8000 in
theorem size4_facts : ∀ h < 0x8,
    ¬(0xF0 ||| h) = 0xFF ∧ ¬(0xF0 ||| h) = 0x80 ∧ ¬(0xF0 ||| h ≤ 0x7F) ∧
      clear_leading_bits (0xF0 ||| h) 0x80 0 = (4, h) := by decide

set_option maxRecDepth 8000 in
theorem size5_facts : ∀ h < 0x4,
    ¬(0xF8 ||| h) = 0xFF ∧ ¬(0xF8 ||| h) = 0x80 ∧ ¬(0xF8 ||| h ≤ 0x7F) ∧
      clear_leading_bits (0xF8 ||| h) 0x80 0 = (5, h) := by decide

/-- Parsing a size-prefixed atom encoding: the first byte `B` decodes to
`szBytes.length + 1` leading bits with cleared value `b2val`, the size
bytes reassemble to the atom length, and the payload is consumed
exactly. -/
theorem atom_prefixed_parse (B b2val : Nat) (szBytes a rest : Bytes) (f : Nat)
    (hB : ¬ B = CONS_BOX_MARKER) (hB80 : ¬ B = 0x80) (hBsmall : ¬ B ≤ MAX_SINGLE_BYTE)
    (hc1 : (clear_leading_bits B 0x80 0).1 = szBytes.length + 1)
    (hc2 : (clear_leading_bits B 0x80 0).2 = b2val)
    (hbe : beNat (b2val :: szBytes) = a.length)
    (hsz : a.length < 0x400000000) :
    sexp_from_stream (f + 1) (B :: (szBytes ++ (a ++ rest))) = some (.atom a, rest) := by
  rw [sexp_from_stream, if_neg hB]
  simp only [atom_from_stream, if_neg hB80, if_neg hBsmall, hc1, hc2]
  cases szBytes with
  | nil =>
    simp only [List.length_nil, List.nil_append]
    norm_num
    rw [hbe]
    exact ⟨hsz, by omega, List.take_left a rest, List.drop_left a rest⟩
  | cons s0 ss =>
    have hgt : (s0 :: ss).length + 1 > 1 := by simp
    have hsub : (s0 :: ss).length + 1 - 1 = (s0 :: ss).length := by omega
    have ht1 : ((s0 :: ss) ++ (a ++ rest)).take ((s0 :: ss).length + 1 - 1) = s0 :: ss := by
      rw [hsub]
      exact List.take_left _ _
    have hd1 : ((s0 :: ss) ++ (a ++ rest)).drop ((s0 :: ss).length + 1 - 1) = a ++ rest := by
      rw [hsub]
      exact List.drop_left _ _
    rw [if_neg (by rw [ht1]; simp)]
    simp only [if_pos hgt, ht1, hd1]
    rw [hbe]
    rw [if_neg (by omega)]
    have ht2 : (a ++ rest).take a.length = a := List.take_left a rest
    have hd2 : (a ++ rest).drop a.length = rest := List.drop_left a rest
    rw [if_neg (by rw [ht2]; simp), ht2, hd2]

theorem beNat_one (x : Nat) : beNat [x] = x := by simp [beNat]

theorem beNat_two (x y : Nat) : beNat [x, y] = 256 * x + y := by
  simp [beNat]
  ring

theorem beNat_three (x y z : Nat) : beNat [x, y, z] = 256 * (256 * x + y) + z := by
  simp [beNat]
  ring

theorem beNat_four (x y z w : Nat) :
    beNat [x, y, z, w] = 256 * (256 * (256 * x + y) + z) + w := by
  simp [beNat]
  ring

theorem beNat_five (x y z w u : Nat) :
    beNat [x, y, z, w, u] = 256 * (256 * (256 * (256 * x + y) + z) + w) + u := by
  simp [beNat]
  ring

theorem sr8 (n : Nat) : n >>> 8 = n / 256 := by
  rw [shiftRight_div]
  norm_num

theorem sr16 (n : Nat) : n >>> 16 = n / 65536 := by
  rw [shiftRight_div]
  norm_num

theorem sr24 (n : Nat) : n >>> 24 = n / 16777216 := by
  rw [shiftRight_div]
  norm_num

theorem sr32 (n : Nat) : n >>> 32 = n / 4294967296 := by
  rw [shiftRight_div]
  norm_num

/-- Any atom serialization parses back to the same atom, consuming
exactly the encoding. -/
theorem atom_to_byte_iterator_parse (a e : Bytes) (h : atom_to_byte_iterator a = some e)
    (rest : Bytes) (fuel : Nat) (hf : 0 < fuel) :
    sexp_from_stream fuel (e ++ rest) = some (.atom a, rest) := by
  obtain ⟨f, rfl⟩ : ∃ f, fuel = f + 1 := ⟨fuel - 1, by omega⟩
  rw [atom_to_byte_iterator] at h
  by_cases h0 : a.length = 0
  · rw [if_pos h0] at h
    cases h
    have ha : a = [] := List.length_eq_zero.mp h0
    subst ha
    simp only [List.cons_append, List.nil_append]
    rw [sexp_from_stream, if_neg (by norm_num [CONS_BOX_MARKER])]
    rw [atom_from_stream, if_pos rfl]
  · rw [if_neg h0] at h
    by_cases h1 : a.length = 1 ∧ a.headI ≤ MAX_SINGLE_BYTE
    · rw [if_pos h1] at h
      cases h
      obtain ⟨c, hc⟩ := List.length_eq_one.mp h1.1
      have hch : a.headI = c := by rw [hc]; rfl
      have hcle : c ≤ 0x7F := by
        have := h1.2
        rw [hch] at this
        exact this
      rw [hc]
      simp only [List.cons_append, List.nil_append]
      rw [sexp_from_stream, if_neg (by norm_num [CONS_BOX_MARKER]; omega)]
      rw [atom_from_stream, if_neg (by omega),
        if_pos (by norm_num [MAX_SINGLE_BYTE]; omega)]
    · rw [if_neg h1] at h
      match hsb : size_blob_for_blob a with
      | none => rw [hsb] at h; cases h
      | some sb =>
        rw [hsb] at h
        cases h
        rw [size_blob_for_blob] at hsb
        by_cases c1 : a.length < 0x40
        · rw [if_pos c1] at hsb
          cases hsb
          have hs0 : 0 < a.length := by omega
          obtain ⟨hne, hne80, hnsmall, hcl⟩ := size1_facts a.length c1 hs0
          have hshape : (([0x80 ||| a.length] ++ a) ++ rest) =
              (0x80 ||| a.length) :: ([] ++ (a ++ rest)) := by simp
          rw [hshape]
          exact atom_prefixed_parse _ _ [] a rest f
            (by simpa [CONS_BOX_MARKER] using hne) hne80 hnsmall
            (by rw [hcl] <;> simp) (by rw [hcl] <;> simp) (by rw [beNat_one]) (by omega)
        · rw [if_neg c1] at hsb
          by_cases c2 : a.length < 0x2000
          · rw [if_pos c2] at hsb
            cases hsb
            have hh : a.length >>> 8 < 0x20 := by
              rw [sr8]
              omega
            obtain ⟨hne, hne80, hnsmall, hcl⟩ := size2_facts (a.length >>> 8) hh
            have hshape : (([0xC0 ||| (a.length >>> 8), (a.length >>> 0) &&& 0xFF] ++ a) ++ rest) =
                (0xC0 ||| (a.length >>> 8)) ::
                  ([(a.length >>> 0) &&& 0xFF] ++ (a ++ rest)) := by simp
            rw [hshape]
            refine atom_prefixed_parse _ _ [(a.length >>> 0) &&& 0xFF] a rest f
              (by simpa [CONS_BOX_MARKER] using hne) hne80 hnsmall
              (by rw [hcl] <;> simp) (by rw [hcl] <;> simp) ?_ (by omega)
            rw [beNat_two, sr8]
            have h255 : (a.length >>> 0) &&& 0xFF = a.length % 256 := by
              rw [Nat.shiftRight_zero, and_255_eq_mod]
            rw [h255]
            omega
          · rw [if_neg c2] at hsb
            by_cases c3 : a.length < 0x100000
            · rw [if_pos c3] at hsb
              cases hsb
              have hh : a.length >>> 16 < 0x10 := by
                rw [sr16]
                omega
              obtain ⟨hne, hne80, hnsmall, hcl⟩ := size3_facts (a.length >>> 16) hh
              have hshape : (([0xE0 ||| (a.length >>> 16), (a.length >>> 8) &&& 0xFF,
                  (a.length >>> 0) &&& 0xFF] ++ a) ++ rest) =
                  (0xE0 ||| (a.length >>> 16)) ::
                    ([(a.length >>> 8) &&& 0xFF, (a.length >>> 0) &&& 0xFF] ++ (a ++ rest)) := by
                simp
              rw [hshape]
              refine atom_prefixed_parse _ _
                [(a.length >>> 8) &&& 0xFF, (a.length >>> 0) &&& 0xFF] a rest f
                (by simpa [CONS_BOX_MARKER] using hne) hne80 hnsmall
                (by rw [hcl] <;> simp) (by rw [hcl] <;> simp) ?_ (by omega)
              rw [beNat_three, sr16]
              have h2 : (a.length >>> 8) &&& 0xFF = a.length / 256 % 256 := by
                rw [sr8, and_255_eq_mod]
              have h3 : (a.length >>> 0) &&& 0xFF = a.length % 256 := by
                rw [Nat.shiftRight_zero, and_255_eq_mod]
              rw [h2, h3]
              omega
            · rw [if_neg c3] at hsb
              by_cases c4 : a.length < 0x8000000
              · rw [if_pos c4] at hsb
                cases hsb
                have hh : a.length >>> 24 < 0x8 := by
                  rw [sr24]
                  omega
                obtain ⟨hne, hne80, hnsmall, hcl⟩ := size4_facts (a.length >>> 24) hh
                have hshape : (([0xF0 ||| (a.length >>> 24), (a.length >>> 16) &&& 0xFF,
                    (a.length >>> 8) &&& 0xFF, (a.length >>> 0) &&& 0xFF] ++ a) ++ rest) =
                    (0xF0 ||| (a.length >>> 24)) ::
                      ([(a.length >>> 16) &&& 0xFF, (a.length >>> 8) &&& 0xFF,
                        (a.length >>> 0) &&& 0xFF] ++ (a ++ rest)) := by
                  simp
                rw [hshape]
                refine atom_prefixed_parse _ _
                  [(a.length >>> 16) &&& 0xFF, (a.length >>> 8) &&& 0xFF,
                    (a.length >>> 0) &&& 0xFF] a rest f
                  (by simpa [CONS_BOX_MARKER] using hne) hne80 hnsmall
                  (by rw [hcl] <;> simp) (by rw [hcl] <;> simp) ?_ (by omega)
                rw [beNat_four, sr24]
                have h2 : (a.length >>> 16) &&& 0xFF = a.length / 65536 % 256 := by
                  rw [sr16, and_255_eq_mod]
                have h3 : (a.length >>> 8) &&& 0xFF = a.length / 256 % 256 := by
                  rw [sr8, and_255_eq_mod]
                have h4 : (a.length >>> 0) &&& 0xFF = a.length % 256 := by
                  rw [Nat.shiftRight_zero, and_255_eq_mod]
                rw [h2, h3, h4]
                omega
              · rw [if_neg c4] at hsb
                by_cases c5 : a.length < 0x400000000
                · rw [if_pos c5] at hsb
                  cases hsb
                  have hh : a.length >>> 32 < 0x4 := by
                    rw [sr32]
                    omega
                  obtain ⟨hne, hne80, hnsmall, hcl⟩ := size5_facts (a.length >>> 32) hh
                  have hshape : (([0xF8 ||| (a.length >>> 32), (a.length >>> 24) &&& 0xFF,
                      (a.length >>> 16) &&& 0xFF, (a.length >>> 8) &&& 0xFF,
                      (a.length >>> 0) &&& 0xFF] ++ a) ++ rest) =
                      (0xF8 ||| (a.length >>> 32)) ::
                        ([(a.length >>> 24) &&& 0xFF, (a.length >>> 16) &&& 0xFF,
                          (a.length >>> 8) &&& 0xFF, (a.length >>> 0) &&& 0xFF] ++
                            (a ++ rest)) := by
                    simp
                  rw [hshape]
                  refine atom_prefixed_parse _ _
                    [(a.length >>> 24) &&& 0xFF, (a.length >>> 16) &&& 0xFF,
                      (a.length >>> 8) &&& 0xFF, (a.length >>> 0) &&& 0xFF] a rest f
                    (by simpa [CONS_BOX_MARKER] using hne) hne80 hnsmall
                    (by rw [hcl] <;> simp) (by rw [hcl] <;> simp) ?_ (by omega)
                  rw [beNat_five, sr32]
                  have h2 : (a.length >>> 24) &&& 0xFF = a.length / 16777216 % 256 := by
                    rw [sr24, and_255_eq_mod]
                  have h3 : (a.length >>> 16) &&& 0xFF = a.length / 65536 % 256 := by
                    rw [sr16, and_255_eq_mod]
                  have h4 : (a.length >>> 8) &&& 0xFF = a.length / 256 % 256 := by
                    rw [sr8, and_255_eq_mod]
                  have h5 : (a.length >>> 0) &&& 0xFF = a.length % 256 := by
                    rw [Nat.shiftRight_zero, and_255_eq_mod]
                  rw [h2, h3, h4, h5]
                  omega
                · rw [if_neg c5] at hsb
                  cases hsb

theorem atom_to_byte_iterator_ne_nil (a e : Bytes)
    (h : atom_to_byte_iterator a = some e) : 0 < e.length := by
  rw [atom_to_byte_iterator] at h
  by_cases h0 : a.length = 0
  · rw [if_pos h0] at h
    cases h
    simp
  · rw [if_neg h0] at h
    by_cases h1 : a.length = 1 ∧ a.headI ≤ MAX_SINGLE_BYTE
    · rw [if_pos h1] at h
      cases h
      omega
    · rw [if_neg h1] at h
      match hsb : size_blob_for_blob a with
      | none => rw [hsb] at h; cases h
      | some sb =>
        rw [hsb] at h
        cases h
        simp only [List.length_append]
        omega

theorem sexp_to_bytes_ne_nil (t : Node) (e : Bytes) (h : sexp_to_bytes t = some e) :
    0 < e.length := by
  cases t with
  | atom a => exact atom_to_byte_iterator_ne_nil a e h
  | pair l r =>
    rw [sexp_to_bytes] at h
    match hl : sexp_to_bytes l, hr : sexp_to_bytes r with
    | none, _ => simp only [hl, reduceCtorEq] at h
    | some lb, none => simp only [hl, hr, reduceCtorEq] at h
    | some lb, some rb =>
      simp only [hl, hr] at h
      cases h
      simp

/-- Any tree serialization parses back to the same tree, consuming
exactly the encoding (the encoding length bounds the nesting depth, so
any fuel beyond it suffices). -/
theorem sexp_to_bytes_parse (t : Node) :
    ∀ e, sexp_to_bytes t = some e →
      ∀ rest fuel, e.length < fuel →
        sexp_from_stream fuel (e ++ rest) = some (t, rest) := by
  induction t with
  | atom a =>
    intro e h rest fuel hf
    exact atom_to_byte_iterator_parse a e h rest fuel (by omega)
  | pair l r ihl ihr =>
    intro e h rest fuel hf
    rw [sexp_to_bytes] at h
    match hl : sexp_to_bytes l, hr : sexp_to_bytes r with
    | none, _ => simp only [hl, reduceCtorEq] at h
    | some lb, none => simp only [hl, hr, reduceCtorEq] at h
    | some lb, some rb =>
      simp only [hl, hr] at h
      cases h
      obtain ⟨f, rfl⟩ : ∃ f2, fuel = f2 + 1 := ⟨fuel - 1, by omega⟩
      simp only [List.length_cons, List.length_append] at hf
      simp only [List.cons_append]
      rw [sexp_from_stream, if_pos rfl, List.append_assoc]
      have hrb := sexp_to_bytes_ne_nil r rb hr
      simp only [ihl lb hl (rb ++ rest) f (by omega),
        ihr rb hr rest f (by omega)]

/-- C2: for every tree whose serialization succeeds, deserializing the
serialization consumes exactly the serialized bytes and returns a
structurally equal tree. -/
theorem serialize_then_parse (t : Node) (p : Bytes) (h : sexp_to_bytes t = some p) :
    parseBytes p = some (t, []) := by
  have hx := sexp_to_bytes_parse t p h [] (p.length + 1) (by omega)
  rwa [List.append_nil] at hx

/-- Witness for C2: the pair `(1 . nil)` serializes to `ff 01 80` and
parses back. -/
theorem serialize_then_parse_witness :
    parseBytes [0xFF, 0x01, 0x80] = some (.pair (.atom [0x01]) (.atom []), []) :=
  serialize_then_parse (.pair (.atom [0x01]) (.atom [])) [0xFF, 0x01, 0x80] (by decide)

/-! ### C1: parse-then-serialize -/

theorem atom_from_stream_bounded (t : Bytes) (b : Nat) (nd : Node) (r : Bytes)
    (h : atom_from_stream t b = some (nd, r)) : atoms_bounded nd = true := by
  rw [atom_from_stream] at h
  by_cases h80 : b = 0x80
  · rw [if_pos h80] at h
    cases h
    decide
  · rw [if_neg h80] at h
    by_cases hsmall : b ≤ MAX_SINGLE_BYTE
    · rw [if_pos hsmall] at h
      cases h
      simp [atoms_bounded]
    · rw [if_neg hsmall] at h
      simp only [] at h
      by_cases hk : (clear_leading_bits b 0x80 0).1 > 1
      · simp only [if_pos hk] at h
        split at h
        · cases h
        · split at h
          · cases h
          · split at h
            · cases h
            · rename_i hsz hlen
              cases h
              simp only [atoms_bounded, List.length_take, decide_eq_true_eq]
              omega
      · simp only [if_neg hk] at h
        split at h
        · cases h
        · split at h
          · cases h
          · split at h
            · cases h
            · rename_i hsz hlen
              cases h
              simp only [atoms_bounded, List.length_take, decide_eq_true_eq]
              omega

theorem sexp_from_stream_bounded (fuel : Nat) :
    ∀ s n r, sexp_from_stream fuel s = some (n, r) → atoms_bounded n = true := by
  induction fuel with
  | zero =>
    intro s n r h
    simp [sexp_from_stream] at h
  | succ f ih =>
    intro s n r h
    match s with
    | [] => simp [sexp_from_stream] at h
    | b :: t =>
      rw [sexp_from_stream] at h
      by_cases hb : b = CONS_BOX_MARKER
      · rw [if_pos hb] at h
        match h1 : sexp_from_stream f t with
        | none => simp only [h1, reduceCtorEq] at h
        | some (l, r1) =>
          simp only [h1] at h
          match h2 : sexp_from_stream f r1 with
          | none => simp only [h2, reduceCtorEq] at h
          | some (rr, r2) =>
            simp only [h2, Option.some.injEq] at h
            obtain ⟨rfl, rfl⟩ := Prod.mk.injEq .. ▸ h
            simp only [atoms_bounded, Bool.and_eq_true]
            exact ⟨ih t l r1 h1, ih r1 rr r2 h2⟩
      · rw [if_neg hb] at h
        exact atom_from_stream_bounded t b n r h

theorem size_blob_for_blob_total (a : Bytes) (hb : a.length < 0x400000000) :
    ∃ sb, size_blob_for_blob a = some sb := by
  rw [size_blob_for_blob]
  by_cases c1 : a.length < 0x40
  · exact ⟨_, by rw [if_pos c1]⟩
  · rw [if_neg c1]
    by_cases c2 : a.length < 0x2000
    · exact ⟨_, by rw [if_pos c2]⟩
    · rw [if_neg c2]
      by_cases c3 : a.length < 0x100000
      · exact ⟨_, by rw [if_pos c3]⟩
      · rw [if_neg c3]
        by_cases c4 : a.length < 0x8000000
        · exact ⟨_, by rw [if_pos c4]⟩
        · rw [if_neg c4]
          exact ⟨_, by rw [if_pos hb]⟩

theorem sexp_to_bytes_total (t : Node) (hb : atoms_bounded t = true) :
    ∃ p, sexp_to_bytes t = some p := by
  induction t with
  | atom a =>
    simp only [atoms_bounded, decide_eq_true_eq] at hb
    rw [sexp_to_bytes, atom_to_byte_iterator]
    by_cases h0 : a.length = 0
    · exact ⟨_, by rw [if_pos h0]⟩
    · rw [if_neg h0]
      by_cases h1 : a.length = 1 ∧ a.headI ≤ MAX_SINGLE_BYTE
      · exact ⟨_, by rw [if_pos h1]⟩
      · rw [if_neg h1]
        obtain ⟨sb, hsb⟩ := size_blob_for_blob_total a hb
        exact ⟨_, by rw [hsb]⟩
  | pair l r ihl ihr =>
    simp only [atoms_bounded, Bool.and_eq_true] at hb
    obtain ⟨pl, hpl⟩ := ihl hb.1
    obtain ⟨pr, hpr⟩ := ihr hb.2
    exact ⟨_, by rw [sexp_to_bytes, hpl, hpr]⟩

/-- Counterexample to C1 as stated: the non-minimal atom encoding
`81 05` is accepted by the stream deserializer, but the parsed atom
re-serializes to the canonical one-byte form `05`, not to the consumed
prefix. -/
theorem parse_serialize_counterexample :
    parseBytes [0x81, 0x05] = some (.atom [0x05], []) ∧
    sexp_to_bytes (.atom [0x05]) = some [0x05] ∧
    some ([0x81, 0x05].take 2) ≠ sexp_to_bytes (.atom [0x05]) := by
  refine ⟨by decide, by decide, by decide⟩

/-- C1 (amended): whenever the stream deserializer accepts a prefix and
returns a node, serializing that node succeeds and yields its canonical
serialization, which itself parses back to the same node consuming all
of it; the consumed input prefix is reproduced only when it is itself
canonical — accepted non-minimal atom encodings re-serialize to the
shorter canonical form. -/
theorem parse_then_serialize_amended (b : Bytes) (n : Node) (r : Bytes)
    (h : parseBytes b = some (n, r)) :
    ∃ p, sexp_to_bytes n = some p ∧ parseBytes p = some (n, []) := by
  have hbnd := sexp_from_stream_bounded _ _ _ _ h
  obtain ⟨p, hp⟩ := sexp_to_bytes_total n hbnd
  refine ⟨p, hp, ?_⟩
  have hx := sexp_to_bytes_parse n p hp [] (p.length + 1) (by omega)
  rwa [List.append_nil] at hx

/-- Witness for C1 (amended): applied at the accepted non-minimal input
`81 05`. -/
theorem parse_then_serialize_amended_witness :
    ∃ p, sexp_to_bytes (.atom [0x05]) = some p ∧
      parseBytes p = some (.atom [0x05], []) :=
  parse_then_serialize_amended [0x81, 0x05] (.atom [0x05]) [] (by decide)

/-! ### C3: the 2^34 atom-size cap -/

/-- Counterexample to C3 as stated: the indexed parse helper
`_atom_size_from_cursor` has no `2^34` cap — a declared atom length of
`2^39` is accepted whenever the blob really is that long. -/
theorem indexed_parse_accepts_huge_atom :
    atom_size_from_cursor
      (0xFC :: 0x80 :: 0 :: 0 :: 0 :: 0 :: List.replicate 0x8000000000 0) 0 =
      some (6, 0x8000000000 + 6) := by
  have hgd : (0xFC :: 0x80 :: 0 :: 0 :: 0 :: 0 ::
      List.replicate 0x8000000000 0).getD 0 0 = 0xFC := rfl
  have hcl : clear_leading_bits 0xFC 0x80 0 = (6, 0) := by decide
  have hsl : sliceB (0xFC :: 0x80 :: 0 :: 0 :: 0 :: 0 ::
      List.replicate 0x8000000000 0) (0 + 1) (0 + 6) = [0x80, 0, 0, 0, 0] := rfl
  have hlen : (0xFC :: 0x80 :: 0 :: 0 :: 0 :: 0 ::
      List.replicate 0x8000000000 0).length = 0x8000000000 + 6 := by
    rw [List.length_cons, List.length_cons, List.length_cons, List.length_cons,
        List.length_cons, List.length_cons, List.length_replicate]
  simp only [atom_size_from_cursor, hgd, hcl, hsl, hlen]
  decide

/-- C3 (amended): the stream deserializer `_atom_from_stream` rejects
any declared atom length ≥ 2^34 without inspecting the payload (the
result is `none` for every payload continuation); the indexed parse
helper `_atom_size_from_cursor` performs no such cap — on success it
guarantees only that the declared atom fits inside the blob. -/
theorem atom_size_too_large_amended :
    (∀ (b : Nat) (szBytes payload : Bytes),
        1 < (clear_leading_bits b 0x80 0).1 →
        szBytes.length = (clear_leading_bits b 0x80 0).1 - 1 →
        ¬ b = 0x80 → ¬ b ≤ MAX_SINGLE_BYTE →
        0x400000000 ≤ beNat ((clear_leading_bits b 0x80 0).2 :: szBytes) →
        atom_from_stream (szBytes ++ payload) b = none) ∧
    (∀ (blob : Bytes) (cursor x e : Nat), cursor < blob.length →
        atom_size_from_cursor blob cursor = some (x, e) → e ≤ blob.length) := by
  constructor
  · intro b szBytes payload hk hlen h80 hsmall hbig
    rw [atom_from_stream, if_neg h80, if_neg hsmall]
    have ht : (szBytes ++ payload).take ((clear_leading_bits b 0x80 0).1 - 1) = szBytes := by
      rw [← hlen]
      exact List.take_left _ _
    rw [if_neg (by rw [ht, hlen]; simp)]
    simp only [if_pos hk, ht]
    rw [if_pos (by omega)]
  · intro blob cursor x e hc h
    rw [atom_size_from_cursor] at h
    by_cases h80 : blob.getD cursor 0 = 0x80
    · rw [if_pos h80] at h
      cases h
      omega
    · rw [if_neg h80] at h
      by_cases hsmall : blob.getD cursor 0 ≤ MAX_SINGLE_BYTE
      · rw [if_pos hsmall] at h
        cases h
        omega
      · rw [if_neg hsmall] at h
        simp only [] at h
        by_cases hk : (clear_leading_bits (blob.getD cursor 0) 0x80 0).1 > 1
        · simp only [if_pos hk] at h
          split at h
          · cases h
          · rename_i hgt
            cases h
            omega
        · simp only [if_neg hk] at h
          split at h
          · cases h
          · rename_i hgt
            cases h
            omega

/-- Witness for C3 (amended): the stream deserializer rejects a 2^39
declared length before the payload, and the indexed parse bound applies
to a tiny accepted input. -/
theorem atom_size_too_large_amended_witness :
    atom_from_stream ([0x80, 0, 0, 0, 0] ++ [0x99]) 0xFC = none ∧
      (1 : Nat) ≤ [(0x80 : Nat)].length :=
  ⟨atom_size_too_large_amended.1 0xFC [0x80, 0, 0, 0, 0] [0x99]
      (by decide) (by decide) (by decide) (by decide) (by decide),
    atom_size_too_large_amended.2 [0x80] 0 1 1 (by decide) (by decide)⟩

/-! ### Tree hash: stack machine vs. recursion (C7) -/

theorem th_run_empty (sha : Bytes → Bytes) (g : Nat) (objs : List Node)
    (hs : List Bytes) (cache : Node → Option Bytes) :
    sha256_treehash_run sha g ⟨objs, hs, [], cache⟩ = hs.head? := by
  cases g <;> rfl

theorem th_step_obj (sha : Bytes → Bytes) (fuel : Nat) (t : Node) (objs : List Node)
    (hs : List Bytes) (ops : List THOp) (cache : Node → Option Bytes) :
    sha256_treehash_run sha (fuel + 1) ⟨t :: objs, hs, .handle_obj :: ops, cache⟩ =
      (match cache t with
       | some r => sha256_treehash_run sha fuel ⟨objs, r :: hs, ops, cache⟩
       | none =>
         match t with
         | .atom a =>
           sha256_treehash_run sha fuel
             ⟨objs, shatree_atom sha a :: hs, ops,
              fun u => if u = t then some (shatree_atom sha a) else cache u⟩
         | .pair p0 p1 =>
           sha256_treehash_run sha fuel
             ⟨p1 :: p0 :: t :: objs, hs,
              .handle_obj :: .handle_obj :: .handle_pair :: ops, cache⟩) := rfl

theorem th_step_hit (sha : Bytes → Bytes) (fuel : Nat) (t : Node) (objs : List Node)
    (hs : List Bytes) (ops : List THOp) (cache : Node → Option Bytes) (r : Bytes)
    (h : cache t = some r) :
    sha256_treehash_run sha (fuel + 1) ⟨t :: objs, hs, .handle_obj :: ops, cache⟩ =
      sha256_treehash_run sha fuel ⟨objs, r :: hs, ops, cache⟩ := by
  rw [th_step_obj, h]

theorem th_step_atom (sha : Bytes → Bytes) (fuel : Nat) (a : Bytes) (objs : List Node)
    (hs : List Bytes) (ops : List THOp) (cache : Node → Option Bytes)
    (h : cache (.atom a) = none) :
    sha256_treehash_run sha (fuel + 1) ⟨.atom a :: objs, hs, .handle_obj :: ops, cache⟩ =
      sha256_treehash_run sha fuel
        ⟨objs, shatree_atom sha a :: hs, ops,
         fun u => if u = .atom a then some (shatree_atom sha a) else cache u⟩ := by
  rw [th_step_obj, h]

theorem th_step_pairobj (sha : Bytes → Bytes) (fuel : Nat) (p0 p1 : Node)
    (objs : List Node) (hs : List Bytes) (ops : List THOp)
    (cache : Node → Option Bytes) (h : cache (.pair p0 p1) = none) :
    sha256_treehash_run sha (fuel + 1)
        ⟨.pair p0 p1 :: objs, hs, .handle_obj :: ops, cache⟩ =
      sha256_treehash_run sha fuel
        ⟨p1 :: p0 :: .pair p0 p1 :: objs, hs,
         .handle_obj :: .handle_obj :: .handle_pair :: ops, cache⟩ := by
  rw [th_step_obj, h]

theorem th_step_pairhash (sha : Bytes → Bytes) (fuel : Nat) (t : Node)
    (objs : List Node) (p0 p1 : Bytes) (hs : List Bytes) (ops : List THOp)
    (cache : Node → Option Bytes) :
    sha256_treehash_run sha (fuel + 1)
        ⟨t :: objs, p0 :: p1 :: hs, .handle_pair :: ops, cache⟩ =
      sha256_treehash_run sha fuel
        ⟨objs, shatree_pair sha p0 p1 :: hs, ops,
         fun u => if u = t then some (shatree_pair sha p0 p1) else cache u⟩ := rfl

/-- Running `handle_obj` on `t` (with a sound cache) takes some `k ≤ 2·count t`
steps, pushes exactly `H_spec sha t`, pops `t`, and leaves a sound cache;
the remaining fuel is untouched. -/
theorem th_run_correct (sha : Bytes → Bytes) (t : Node) :
    ∀ cache, soundCache sha cache →
      ∀ objs hs ops, ∃ k cache', k ≤ 2 * t.count ∧ soundCache sha cache' ∧
        ∀ fuel,
          sha256_treehash_run sha (fuel + k) ⟨t :: objs, hs, .handle_obj :: ops, cache⟩ =
            sha256_treehash_run sha fuel ⟨objs, H_spec sha t :: hs, ops, cache'⟩ := by
  induction t with
  | atom a =>
    intro cache hc objs hs ops
    match hcc : cache (.atom a) with
    | some r =>
      refine ⟨1, cache, by simp [Node.count], hc, fun fuel => ?_⟩
      rw [th_step_hit sha fuel _ objs hs ops cache r hcc, hc _ r hcc]
    | none =>
      refine ⟨1, fun u => if u = .atom a then some (shatree_atom sha a) else cache u,
        by simp [Node.count], ?_, fun fuel => ?_⟩
      · intro u h hu
        simp only [] at hu
        by_cases he : u = .atom a
        · subst he
          rw [if_pos rfl] at hu
          cases hu
          rfl
        · rw [if_neg he] at hu
          exact hc u h hu
      · exact th_step_atom sha fuel a objs hs ops cache hcc
  | pair p0 p1 ih0 ih1 =>
    intro cache hc objs hs ops
    match hcc : cache (.pair p0 p1) with
    | some r =>
      refine ⟨1, cache, by simp [Node.count]; omega, hc, fun fuel => ?_⟩
      rw [th_step_hit sha fuel _ objs hs ops cache r hcc, hc _ r hcc]
    | none =>
      obtain ⟨k1, cache1, hk1, hs1, heq1⟩ :=
        ih1 cache hc (p0 :: .pair p0 p1 :: objs) hs (.handle_obj :: .handle_pair :: ops)
      obtain ⟨k2, cache2, hk2, hs2, heq2⟩ :=
        ih0 cache1 hs1 (.pair p0 p1 :: objs) (H_spec sha p1 :: hs) (.handle_pair :: ops)
      refine ⟨1 + k1 + k2 + 1,
        fun u => if u = .pair p0 p1 then
            some (shatree_pair sha (H_spec sha p0) (H_spec sha p1))
          else cache2 u,
        by simp [Node.count]; omega, ?_, fun fuel => ?_⟩
      · intro u h hu
        simp only [] at hu
        by_cases he : u = .pair p0 p1
        · subst he
          rw [if_pos rfl] at hu
          cases hu
          rfl
        · rw [if_neg he] at hu
          exact hs2 u h hu
      · have harith : fuel + (1 + k1 + k2 + 1) = (fuel + 1 + k2 + k1) + 1 := by omega
        rw [harith, th_step_pairobj sha _ p0 p1 objs hs ops cache hcc]
        have h1 := heq1 (fuel + 1 + k2)
        rw [h1]
        have h2 := heq2 (fuel + 1)
        rw [h2]
        exact th_step_pairhash sha fuel (.pair p0 p1) objs
          (H_spec sha p0) (H_spec sha p1) hs ops cache2

/-- The machine entered as `sha256_treehash` does it computes the
recursive hash (shared bridge; `soundCache` holds of the empty cache). -/
theorem treehash_machine_eq (sha : Bytes → Bytes) (cache : Node → Option Bytes)
    (hc : soundCache sha cache) (t : Node) :
    sha256_treehash sha cache t = some (H_spec sha t) := by
  obtain ⟨k, cache', hk, hc', heq⟩ := th_run_correct sha t cache hc [] [] []
  rw [sha256_treehash]
  have h2 : 2 * t.count = (2 * t.count - k) + k := by omega
  rw [h2, heq (2 * t.count - k), th_run_empty]
  rfl

/-- C7: for every tree `t` and every sound ambient cache (in particular
the empty one), the explicit-stack, memoizing `sha256_treehash` returns
exactly the reference recursive tree hash
`H(atom a) = sha(0x01‖a)`, `H(pair l r) = sha(0x02‖H l‖H r)`. -/
theorem stack_treehash_eq_recursive (sha : Bytes → Bytes)
    (cache : Node → Option Bytes) (hc : soundCache sha cache) (t : Node) :
    sha256_treehash sha cache t = some (H_spec sha t) :=
  treehash_machine_eq sha cache hc t

/-- Witness for C7: the empty cache is sound; evaluated on
`(1 . nil)` with a concrete stand-in digest function. -/
theorem stack_treehash_eq_recursive_witness :
    sha256_treehash (fun l => [l.length]) (fun _ => none)
        (.pair (.atom [0x01]) (.atom [])) =
      some (H_spec (fun l => [l.length]) (.pair (.atom [0x01]) (.atom []))) :=
  stack_treehash_eq_recursive (fun l => [l.length]) (fun _ => none)
    (fun _ _ hu => by cases hu) (.pair (.atom [0x01]) (.atom []))

/-! ### Indexed parse: triple layout and hash pass (C4, C5) -/

theorem clb_f_ge (fuel : Nat) :
    ∀ b m c, c ≤ (clear_leading_bits_f fuel b m c).1 := by
  induction fuel with
  | zero => intro b m c; exact Nat.le_refl c
  | succ f ih =>
    intro b m c
    rw [clear_leading_bits_f]
    by_cases hb : b &&& m ≠ 0
    · rw [if_pos hb]
      exact Nat.le_trans (Nat.le_succ c) (ih _ _ (c + 1))
    · rw [if_neg hb]

theorem clb_zero (b : Nat) (h : (clear_leading_bits b 0x80 0).1 = 0) :
    (clear_leading_bits b 0x80 0).2 = b := by
  by_cases hb : b &&& 0x80 = 0
  · have he : clear_leading_bits b 0x80 0 = (0, b) := by
      rw [clear_leading_bits]
      show clear_leading_bits_f (7 + 1) b 0x80 0 = (0, b)
      rw [clear_leading_bits_f, if_neg (not_not_intro hb)]
    rw [he]
  · exfalso
    have h1 : clear_leading_bits b 0x80 0 =
        clear_leading_bits_f 7 (b &&& (0xFF ^^^ 0x80)) (0x80 >>> 1) 1 := by
      rw [clear_leading_bits]
      show clear_leading_bits_f (7 + 1) b 0x80 0 = _
      rw [clear_leading_bits_f, if_pos hb]
    have h2 := clb_f_ge 7 (b &&& (0xFF ^^^ 0x80)) (0x80 >>> 1) 1
    rw [h1] at h
    omega

theorem clb_byte_ge_one (b : Nat) (h7 : ¬ b ≤ 0x7F) (hb : b < 256) :
    1 ≤ (clear_leading_bits b 0x80 0).1 := by
  have hne : b &&& 0x80 ≠ 0 := (and128_iff b hb).2 (by omega)
  have h1 : clear_leading_bits b 0x80 0 =
      clear_leading_bits_f 7 (b &&& (0xFF ^^^ 0x80)) (0x80 >>> 1) 1 := by
    rw [clear_leading_bits]
    show clear_leading_bits_f (7 + 1) b 0x80 0 = _
    rw [clear_leading_bits_f, if_pos hne]
  rw [h1]
  exact clb_f_ge 7 _ _ 1

/-- On success `_atom_size_from_cursor` moves the cursor strictly
forward and stays inside the blob. -/
theorem asfc_bounds (blob : Bytes) (cursor x e : Nat) (hc : cursor < blob.length)
    (h : atom_size_from_cursor blob cursor = some (x, e)) :
    cursor < e ∧ e ≤ blob.length := by
  rw [atom_size_from_cursor] at h
  by_cases h80 : blob.getD cursor 0 = 0x80
  · rw [if_pos h80] at h
    cases h
    omega
  · rw [if_neg h80] at h
    by_cases hsmall : blob.getD cursor 0 ≤ MAX_SINGLE_BYTE
    · rw [if_pos hsmall] at h
      cases h
      omega
    · rw [if_neg hsmall] at h
      simp only [] at h
      by_cases hk : (clear_leading_bits (blob.getD cursor 0) 0x80 0).1 > 1
      · simp only [if_pos hk] at h
        split at h
        · cases h
        · rename_i hgt
          cases h
          omega
      · simp only [if_neg hk] at h
        split at h
        · cases h
        · rename_i hgt
          cases h
          refine ⟨?_, by omega⟩
          by_cases hk0 : (clear_leading_bits (blob.getD cursor 0) 0x80 0).1 = 0
          · have hb2 := clb_zero _ hk0
            have hbe1 : beNat [(clear_leading_bits (blob.getD cursor 0) 0x80 0).2] =
                (clear_leading_bits (blob.getD cursor 0) 0x80 0).2 := beNat_one _
            rw [MAX_SINGLE_BYTE] at hsmall
            omega
          · omega

theorem getD_append_lt {α : Type} (xs ys : List α) (k : Nat) (d : α)
    (h : k < xs.length) : (xs ++ ys).getD k d = xs.getD k d := by
  induction xs generalizing k with
  | nil => simp at h
  | cons x xs ih =>
    cases k with
    | zero => rfl
    | succ k =>
      simp only [List.cons_append, List.getD_cons_succ]
      exact ih k (by simpa using h)

theorem getD_append_add {α : Type} (xs ys : List α) (k : Nat) (d : α) :
    (xs ++ ys).getD (xs.length + k) d = ys.getD k d := by
  induction xs with
  | nil => simp
  | cons x xs ih =>
    simp only [List.length_cons, List.cons_append]
    have he : xs.length + 1 + k = (xs.length + k) + 1 := by omega
    rw [he, List.getD_cons_succ, ih]

theorem getD_append_at {α : Type} (xs : List α) (y : α) (zs : List α) (d : α) :
    (xs ++ y :: zs).getD xs.length d = y := by
  have h := getD_append_add xs (y :: zs) 0 d
  simpa using h

theorem set_append_at {α : Type} (xs : List α) (y v : α) (zs : List α) :
    (xs ++ y :: zs).set xs.length v = xs ++ v :: zs := by
  induction xs with
  | nil => rfl
  | cons x xs ih =>
    simp only [List.cons_append, List.length_cons]
    show x :: ((xs ++ y :: zs).set xs.length v) = x :: (xs ++ v :: zs)
    rw [ih]

theorem getD_map {α β : Type} (f : α → β) (l : List α) (i : Nat) (d : β) (d0 : α)
    (h : i < l.length) : (l.map f).getD i d = f (l.getD i d0) := by
  induction l generalizing i with
  | nil => simp at h
  | cons x xs ih =>
    cases i with
    | zero => rfl
    | succ i =>
      simp only [List.map_cons, List.getD_cons_succ]
      exact ih i (by simpa using h)

theorem drop_eq_getD_cons {α : Type} (l : List α) (d : α) :
    ∀ s, s < l.length → l.drop s = l.getD s d :: l.drop (s + 1) := by
  induction l with
  | nil => intro s h; simp at h
  | cons x xs ih =>
    intro s h
    cases s with
    | zero => rfl
    | succ s =>
      simp only [List.drop_succ_cons, List.getD_cons_succ]
      exact ih s (by simpa using h)

theorem preorderNodes_head (n : Node) : ∃ rest, preorderNodes n = n :: rest := by
  cases n with
  | atom a => exact ⟨[], rfl⟩
  | pair l r => exact ⟨_, rfl⟩

theorem preorderNodes_length (n : Node) : (preorderNodes n).length = n.count := by
  induction n with
  | atom a => rfl
  | pair l r ihl ihr =>
    simp only [preorderNodes, Node.count, List.length_cons, List.length_append,
      ihl, ihr]
    omega

theorem triplesOk_length {blob : Bytes} {base s e : Nat} {n : Node}
    {T : List Triple} (h : TriplesOk blob base s e n T) : T.length = n.count := by
  induction h with
  | atom base s off nc hs hne hasfc => rfl
  | pair base s m e l r T1 T2 hs hm hl hr ih1 ih2 =>
    simp only [Node.count, List.length_cons, List.length_append, ih1, ih2]
    omega

theorem triplesOk_bounds {blob : Bytes} {base s e : Nat} {n : Node}
    {T : List Triple} (h : TriplesOk blob base s e n T) :
    s < e ∧ e ≤ blob.length := by
  induction h with
  | atom base s off nc hs hne hasfc => exact asfc_bounds blob s off nc hs hasfc
  | pair base s m e l r T1 T2 hs hm hl hr ih1 ih2 => omega

theorem asfc_to_stream (blob : Bytes) (s off nc : Nat)
    (hs : s < blob.length) (hcap : blob.length < 0x400000000)
    (hbyte : blob.getD s 0 < 256)
    (h : atom_size_from_cursor blob s = some (off, nc)) :
    atom_from_stream (blob.drop (s + 1)) (blob.getD s 0) =
      some (.atom (sliceB blob (s + off) nc), blob.drop nc) := by
  rw [atom_size_from_cursor] at h
  by_cases h80 : blob.getD s 0 = 0x80
  · rw [if_pos h80] at h
    cases h
    rw [atom_from_stream, if_pos h80]
    have hslice : sliceB blob (s + 1) (s + 1) = [] := by simp [sliceB]
    rw [hslice]
  · rw [if_neg h80] at h
    by_cases hsm : blob.getD s 0 ≤ MAX_SINGLE_BYTE
    · rw [if_pos hsm] at h
      cases h
      rw [atom_from_stream, if_neg h80, if_pos hsm]
      have hslice : sliceB blob (s + 0) (s + 1) = [blob.getD s 0] := by
        simp only [sliceB, Nat.add_zero]
        rw [drop_eq_getD_cons blob 0 s hs]
        have h1 : s + 1 - s = 1 := by omega
        rw [h1]
        rfl
      rw [hslice]
    · rw [if_neg hsm] at h
      simp only [] at h
      obtain ⟨k, b2, hclb⟩ : ∃ k b2,
          clear_leading_bits (blob.getD s 0) 0x80 0 = (k, b2) := ⟨_, _, rfl⟩
      have hk1 : 1 ≤ k := by
        have hg := clb_byte_ge_one (blob.getD s 0) hsm hbyte
        rw [hclb] at hg
        exact hg
      simp only [hclb] at h
      by_cases hk2 : k > 1
      · simp only [if_pos hk2] at h
        split at h
        · cases h
        · rename_i hgt
          rw [Option.some.injEq, Prod.mk.injEq] at h
          obtain ⟨h1, h2⟩ := h
          subst h1
          subst h2
          rw [atom_from_stream, if_neg h80, if_neg hsm]
          simp only [hclb, if_pos hk2]
          have htk : (blob.drop (s + 1)).take (k - 1) = sliceB blob (s + 1) (s + k) := by
            rw [sliceB]
            congr 1
            omega
          have hlen1 : ((blob.drop (s + 1)).take (k - 1)).length = k - 1 := by
            simp only [List.length_take, List.length_drop]
            omega
          rw [if_neg (by rw [hlen1]; simp)]
          simp only [htk]
          rw [if_neg (by omega)]
          have hf1 : (blob.drop (s + 1)).drop (k - 1) = blob.drop (s + k) := by
            rw [List.drop_drop]
            congr 1
            omega
          rw [hf1]
          have hszlen : ((blob.drop (s + k)).take
              (beNat (b2 :: sliceB blob (s + 1) (s + k)))).length =
              beNat (b2 :: sliceB blob (s + 1) (s + k)) := by
            simp only [List.length_take, List.length_drop]
            omega
          rw [if_neg (by rw [hszlen]; simp)]
          have htake : (blob.drop (s + k)).take (beNat (b2 :: sliceB blob (s + 1) (s + k))) =
              sliceB blob (s + k) (s + beNat (b2 :: sliceB blob (s + 1) (s + k)) + k) := by
            rw [sliceB]
            congr 1
            omega
          have hdrop : (blob.drop (s + k)).drop (beNat (b2 :: sliceB blob (s + 1) (s + k))) =
              blob.drop (s + beNat (b2 :: sliceB blob (s + 1) (s + k)) + k) := by
            rw [List.drop_drop]
            congr 1
            omega
          rw [htake, hdrop]
      · simp only [if_neg hk2] at h
        have hk : k = 1 := by omega
        subst hk
        split at h
        · cases h
        · rename_i hgt
          rw [Option.some.injEq, Prod.mk.injEq] at h
          obtain ⟨h1, h2⟩ := h
          subst h1
          subst h2
          rw [atom_from_stream, if_neg h80, if_neg hsm]
          simp only [hclb, gt_iff_lt, lt_self_iff_false, false_and, if_false]
          rw [if_neg (by omega)]
          have hszlen : ((blob.drop (s + 1)).take (beNat [b2])).length = beNat [b2] := by
            simp only [List.length_take, List.length_drop]
            omega
          rw [if_neg (by rw [hszlen]; simp)]
          have htake : (blob.drop (s + 1)).take (beNat [b2]) =
              sliceB blob (s + 1) (s + beNat [b2] + 1) := by
            rw [sliceB]
            congr 1
            omega
          have hdrop : (blob.drop (s + 1)).drop (beNat [b2]) =
              blob.drop (s + beNat [b2] + 1) := by
            rw [List.drop_drop]
            congr 1
            omega
          rw [htake, hdrop]


theorem triplesOk_parses (blob : Bytes) (hcap : blob.length < 0x400000000)
    (hbyte : ∀ x ∈ blob, x < 256) :
    ∀ {base s e : Nat} {n : Node} {T : List Triple}, TriplesOk blob base s e n T →
      ∀ fuel, e - s < fuel →
        sexp_from_stream fuel (blob.drop s) = some (n, blob.drop e) := by
  intro base s e n T h
  induction h with
  | atom base s off nc hsl hne hasfc =>
    intro fuel hf
    have hb := asfc_bounds blob s off nc hsl hasfc
    obtain ⟨f, rfl⟩ : ∃ f, fuel = f + 1 := ⟨fuel - 1, by omega⟩
    rw [drop_eq_getD_cons blob 0 s hsl]
    rw [sexp_from_stream, if_neg hne]
    refine asfc_to_stream blob s off nc hsl hcap (hbyte _ ?_) hasfc
    rw [List.getD_eq_getElem blob 0 hsl]
    exact List.getElem_mem hsl
  | pair base s m e l r T1 T2 hsl hmark hT1 hT2 ih1 ih2 =>
    intro fuel hf
    have hb1 := triplesOk_bounds hT1
    have hb2 := triplesOk_bounds hT2
    obtain ⟨f, rfl⟩ : ∃ f, fuel = f + 1 := ⟨fuel - 1, by omega⟩
    rw [drop_eq_getD_cons blob 0 s hsl, hmark]
    rw [sexp_from_stream, if_pos rfl]
    simp only [ih1 f (by omega), ih2 f (by omega)]


theorem parse_obj_spec (sha : Bytes → Bytes) (cth : Bool) (blob : Bytes) :
    ∀ fuel cursor ol hl ol' hl' c',
      (cth = true → hl.length = ol.length) →
      parse_obj sha cth blob fuel cursor ol hl = some (ol', hl', c') →
      ∃ n T, TriplesOk blob ol.length cursor c' n T ∧ ol' = ol ++ T ∧
        hl' = (if cth then hl ++ (preorderNodes n).map (H_spec sha) else hl) := by
  intro fuel
  induction fuel with
  | zero =>
    intro cursor ol hl ol' hl' c' hinv h
    simp [parse_obj] at h
  | succ f ih =>
    intro cursor ol hl ol' hl' c' hinv h
    rw [parse_obj] at h
    by_cases hcur : cursor ≥ blob.length
    · rw [if_pos hcur] at h
      cases h
    · rw [if_neg hcur] at h
      by_cases hmark : blob.getD cursor 0 = CONS_BOX_MARKER
      · rw [if_pos hmark] at h
        simp only [] at h
        match h1 : parse_obj sha cth blob f (cursor + 1) (ol ++ [(cursor, 0, 0)])
            (if cth then hl ++ [[]] else hl) with
        | none => simp only [h1, reduceCtorEq] at h
        | some (ol1, hl1, c1) =>
          simp only [h1] at h
          have hinv1 : cth = true →
              (if cth then hl ++ [[]] else hl).length = (ol ++ [(cursor, 0, 0)]).length := by
            intro hc
            rw [hc, if_pos rfl]
            simp [hinv hc]
          obtain ⟨l, T1, hT1, hol1, hhl1⟩ := ih (cursor + 1) _ _ ol1 hl1 c1 hinv1 h1
          have hbase1 : (ol ++ [(cursor, 0, 0)]).length = ol.length + 1 := by simp
          rw [hbase1] at hT1
          have hol1' : ol1 = ol ++ (cursor, 0, 0) :: T1 := by
            rw [hol1]
            simp
          have hlen1 : ol1.length = ol.length + 1 + T1.length := by
            rw [hol1']
            simp <;> omega
          have hget1 : ol1.getD ol.length (0, 0, 0) = (cursor, 0, 0) := by
            rw [hol1']
            exact getD_append_at ol (cursor, 0, 0) T1 (0, 0, 0)
          have hset1 : ol1.set ol.length
              ((ol1.getD ol.length (0, 0, 0)).1, (ol1.getD ol.length (0, 0, 0)).2.1,
                ol1.length) =
              ol ++ (cursor, 0, ol.length + 1 + T1.length) :: T1 := by
            rw [hget1, hlen1, hol1']
            exact set_append_at ol (cursor, 0, 0) (cursor, 0, ol.length + 1 + T1.length) T1
          rw [hset1] at h
          match h2 : parse_obj sha cth blob f c1
              (ol ++ (cursor, 0, ol.length + 1 + T1.length) :: T1) hl1 with
          | none => simp only [h2, reduceCtorEq] at h
          | some (ol3, hl2, c2) =>
            simp only [h2] at h
            have hT1len : T1.length = l.count := triplesOk_length hT1
            have hinv2 : cth = true →
                hl1.length = (ol ++ (cursor, 0, ol.length + 1 + T1.length) :: T1).length := by
              intro hc
              rw [hhl1, hc, if_pos rfl]
              simp [hinv hc, preorderNodes_length, hT1len] <;> omega
            obtain ⟨r, T2, hT2, hol3, hhl2⟩ := ih c1 _ _ ol3 hl2 c2 hinv2 h2
            have hbase2 : (ol ++ (cursor, 0, ol.length + 1 + T1.length) :: T1).length =
                ol.length + 1 + T1.length := by
              simp <;> omega
            rw [hbase2] at hT2
            have hol3' : ol3 = ol ++ (cursor, 0, ol.length + 1 + T1.length) :: (T1 ++ T2) := by
              rw [hol3]
              simp
            have hget3 : ol3.getD ol.length (0, 0, 0) =
                (cursor, 0, ol.length + 1 + T1.length) := by
              rw [hol3']
              exact getD_append_at ol _ (T1 ++ T2) (0, 0, 0)
            have hset3 : ol3.set ol.length
                ((ol3.getD ol.length (0, 0, 0)).1, c2, (ol3.getD ol.length (0, 0, 0)).2.2) =
                ol ++ (cursor, c2, ol.length + 1 + T1.length) :: (T1 ++ T2) := by
              rw [hget3, hol3']
              exact set_append_at ol _ (cursor, c2, ol.length + 1 + T1.length) (T1 ++ T2)
            rw [hset3] at h
            rw [hget3] at h
            have hproj : ((cursor, 0, ol.length + 1 + T1.length) : Triple).2.2 =
                ol.length + 1 + T1.length := rfl
            rw [hproj] at h
            rw [Option.some.injEq, Prod.mk.injEq] at h
            obtain ⟨hol', h⟩ := h
            rw [Prod.mk.injEq] at h
            obtain ⟨hhl', hc'⟩ := h
            subst hc'
            refine ⟨.pair l r, (cursor, c2, ol.length + 1 + T1.length) :: (T1 ++ T2),
              TriplesOk.pair ol.length cursor c1 c2 l r T1 T2 (by omega) hmark hT1 hT2,
              by rw [← hol'], ?_⟩
            by_cases hcth : cth = true
            · simp only [if_pos hcth] at hhl' ⊢
              rw [← hhl']
              simp only [if_pos hcth] at hhl2 hhl1
              rw [hhl2, hhl1]
              have hlh : hl.length = ol.length := hinv hcth
              have hmapl : ((preorderNodes l).map (H_spec sha)).length = T1.length := by
                simp [preorderNodes_length, hT1len]
              obtain ⟨restl, hrestl⟩ := preorderNodes_head l
              obtain ⟨restr, hrestr⟩ := preorderNodes_head r
              have hform : hl ++ [[]] ++ (preorderNodes l).map (H_spec sha) ++
                  (preorderNodes r).map (H_spec sha) =
                  hl ++ ([] : Bytes) ::
                    ((preorderNodes l).map (H_spec sha) ++
                      (preorderNodes r).map (H_spec sha)) := by
                simp
              rw [hform]
              have hgL : (hl ++ ([] : Bytes) ::
                  ((preorderNodes l).map (H_spec sha) ++
                    (preorderNodes r).map (H_spec sha))).getD (ol.length + 1) [] =
                  H_spec sha l := by
                have hx := getD_append_add hl (([] : Bytes) ::
                  ((preorderNodes l).map (H_spec sha) ++
                    (preorderNodes r).map (H_spec sha))) 1 []
                rw [hlh] at hx
                rw [hx]
                rw [List.getD_cons_succ]
                rw [hrestl]
                rfl
              have hgR : (hl ++ ([] : Bytes) ::
                  ((preorderNodes l).map (H_spec sha) ++
                    (preorderNodes r).map (H_spec sha))).getD
                    (ol.length + 1 + T1.length) [] = H_spec sha r := by
                have harith : ol.length + 1 + T1.length = hl.length + (1 + T1.length) := by
                  omega
                rw [harith, getD_append_add]
                have h1t : 1 + T1.length = T1.length + 1 := by omega
                rw [h1t, List.getD_cons_succ]
                rw [← hmapl, hrestr, List.map_cons, getD_append_at]
              rw [hgL, hgR]
              have hsetf : (hl ++ ([] : Bytes) ::
                  ((preorderNodes l).map (H_spec sha) ++
                    (preorderNodes r).map (H_spec sha))).set ol.length
                  (shatree_pair sha (H_spec sha l) (H_spec sha r)) =
                  hl ++ (shatree_pair sha (H_spec sha l) (H_spec sha r)) ::
                    ((preorderNodes l).map (H_spec sha) ++
                      (preorderNodes r).map (H_spec sha)) := by
                rw [← hlh]
                exact set_append_at hl _ _ _
              rw [hsetf]
              simp [preorderNodes, H_spec, shatree_pair]
            · simp only [if_neg hcth] at hhl' hhl2 hhl1 ⊢
              rw [← hhl', hhl2, hhl1]
      · rw [if_neg hmark] at h
        match hasfc : atom_size_from_cursor blob cursor with
        | none => simp only [hasfc, reduceCtorEq] at h
        | some (off, nc) =>
          simp only [hasfc] at h
          rw [Option.some.injEq, Prod.mk.injEq] at h
          obtain ⟨hol', h⟩ := h
          rw [Prod.mk.injEq] at h
          obtain ⟨hhl', hc'⟩ := h
          subst hc'
          refine ⟨.atom (sliceB blob (cursor + off) nc), [(cursor, nc, off)],
            TriplesOk.atom ol.length cursor off nc (by omega) hmark hasfc,
            by rw [← hol'], ?_⟩
          rw [← hhl']
          by_cases hcth : cth = true
          · simp only [if_pos hcth]
            simp [preorderNodes, H_spec, shatree_atom]
          · simp only [if_neg hcth]


/-- C4: for every byte string accepted by the indexed parse
`deserialize_as_tuples`, the returned pre-order triple list has the
claimed layout (`TriplesOk`): an atom triple `(start, end, extra)`
carries its payload at `blob[start+extra:end]`, a pair triple at
pre-order index `i` has its left child at index `i + 1`, its right
child's pre-order index in `extra`, and spans `blob[start:end)`; on
blobs below the serializer's `2^34` cap made of genuine bytes that span
is the node's complete serialization (the stream parser consumes
exactly it). -/
theorem deserialize_as_tuples_layout (sha : Bytes → Bytes) (blob : Bytes)
    (cursor : Nat) (cth : Bool) (ol : List Triple) (hlo : Option (List Bytes))
    (h : deserialize_as_tuples sha blob cursor cth = some (ol, hlo)) :
    ∃ n e, TriplesOk blob 0 cursor e n ol ∧
      (blob.length < 0x400000000 → (∀ x ∈ blob, x < 256) →
        sexp_from_stream (blob.length + 1) (blob.drop cursor) =
          some (n, blob.drop e)) := by
  rw [deserialize_as_tuples] at h
  match hp : parse_obj sha cth blob (blob.length + 1) cursor [] [] with
  | none => simp only [hp, reduceCtorEq] at h
  | some (ol0, hl0, c0) =>
    simp only [hp] at h
    rw [Option.some.injEq, Prod.mk.injEq] at h
    obtain ⟨hol, hhl⟩ := h
    obtain ⟨n, T, hT, holT, hhlT⟩ :=
      parse_obj_spec sha cth blob (blob.length + 1) cursor [] [] ol0 hl0 c0
        (fun _ => rfl) hp
    have hT0 : TriplesOk blob 0 cursor c0 n T := hT
    have holn : ol = T := by
      rw [← hol, holT]
      rfl
    subst holn
    have hb := triplesOk_bounds hT0
    exact ⟨n, c0, hT0, fun hcap hbyte =>
      triplesOk_parses blob hcap hbyte hT0 (blob.length + 1) (by omega)⟩

/-- Witness for C4: the blob `ff 01 80` (the pair `(1 . nil)`). -/
theorem deserialize_as_tuples_layout_witness :
    ∃ n e, TriplesOk [0xFF, 0x01, 0x80] 0 0 e n [(0, 3, 2), (1, 2, 0), (2, 3, 1)] ∧
      (([0xFF, 0x01, 0x80] : Bytes).length < 0x400000000 →
        (∀ x ∈ ([0xFF, 0x01, 0x80] : Bytes), x < 256) →
        sexp_from_stream (([0xFF, 0x01, 0x80] : Bytes).length + 1)
            (([0xFF, 0x01, 0x80] : Bytes).drop 0) =
          some (n, ([0xFF, 0x01, 0x80] : Bytes).drop e)) :=
  deserialize_as_tuples_layout (fun l => [l.length]) [0xFF, 0x01, 0x80] 0 false
    [(0, 3, 2), (1, 2, 0), (2, 3, 1)] none (by decide)

/-- C5: when `deserialize_as_tuples` runs with `calculate_tree_hash`,
the parallel hash list has one entry per triple, and the entry at each
pre-order index is exactly what the standalone non-recursive
`sha256_treehash` (entered with an empty cache) returns on the subtree
rooted at that node. -/
theorem deserialize_tree_hashes (sha : Bytes → Bytes) (blob : Bytes) (cursor : Nat)
    (ol : List Triple) (hl : List Bytes)
    (h : deserialize_as_tuples sha blob cursor true = some (ol, some hl)) :
    ∃ n e, TriplesOk blob 0 cursor e n ol ∧ hl.length = ol.length ∧
      ∀ i, i < hl.length →
        sha256_treehash sha (fun _ => none) ((preorderNodes n).getD i (.atom [])) =
          some (hl.getD i []) := by
  rw [deserialize_as_tuples] at h
  match hp : parse_obj sha true blob (blob.length + 1) cursor [] [] with
  | none => simp only [hp, reduceCtorEq] at h
  | some (ol0, hl0, c0) =>
    simp only [hp, if_pos rfl] at h
    rw [Option.some.injEq, Prod.mk.injEq] at h
    obtain ⟨hol, hhl⟩ := h
    rw [if_pos trivial] at hhl
    rw [Option.some.injEq] at hhl
    obtain ⟨n, T, hT, holT, hhlT⟩ :=
      parse_obj_spec sha true blob (blob.length + 1) cursor [] [] ol0 hl0 c0
        (fun _ => rfl) hp
    have hT0 : TriplesOk blob 0 cursor c0 n T := hT
    have holn : ol = T := by
      rw [← hol, holT]
      rfl
    have hhln : hl = (preorderNodes n).map (H_spec sha) := by
      rw [← hhl, hhlT, if_pos rfl]
      rfl
    subst holn
    refine ⟨n, c0, hT0, ?_, ?_⟩
    · rw [hhln, triplesOk_length hT0]
      simp [preorderNodes_length]
    · intro i hi
      rw [hhln] at hi
      simp only [List.length_map] at hi
      rw [hhln, getD_map (H_spec sha) (preorderNodes n) i [] (.atom []) hi]
      exact treehash_machine_eq sha (fun _ => none) (fun _ _ hu => by cases hu)
        ((preorderNodes n).getD i (.atom []))

/-- Witness for C5: the blob `ff 01 80` hashed with a concrete stand-in
digest function. -/
theorem deserialize_tree_hashes_witness :
    ∃ n e, TriplesOk [0xFF, 0x01, 0x80] 0 0 e n [(0, 3, 2), (1, 2, 0), (2, 3, 1)] ∧
      ([[3], [2], [1]] : List Bytes).length =
        ([(0, 3, 2), (1, 2, 0), (2, 3, 1)] : List Triple).length ∧
      ∀ i, i < ([[3], [2], [1]] : List Bytes).length →
        sha256_treehash (fun l => [l.length]) (fun _ => none)
            ((preorderNodes n).getD i (.atom [])) =
          some (([[3], [2], [1]] : List Bytes).getD i []) :=
  deserialize_tree_hashes (fun l => [l.length]) [0xFF, 0x01, 0x80] 0
    [(0, 3, 2), (1, 2, 0), (2, 3, 1)] [[3], [2], [1]] (by decide)

/-! ### Curry-and-treehash agreement (C10) -/

theorem H_spec_length (sha : Bytes → Bytes) (hsha : ∀ x, (sha x).length = 32)
    (t : Node) : (H_spec sha t).length = 32 := by
  cases t with
  | atom a => exact hsha _
  | pair l r => exact hsha _

theorem curried_values_tree_hash_eq (sha : Bytes → Bytes) (args : List Node) :
    curried_values_tree_hash sha (args.map (H_spec sha)) =
      H_spec sha (fixed_args_chain args) := by
  induction args with
  | nil => rfl
  | cons a rest ih =>
    have hfac : fixed_args_chain (a :: rest) =
        Node.pair (.atom [0x04])
          (.pair (.pair (.atom [0x01]) a)
            (.pair (fixed_args_chain rest) (.atom []))) := rfl
    rw [List.map_cons, curried_values_tree_hash, ih, hfac]
    rfl

/-- C10: computing the curried program's hash from hashes alone agrees
with hashing the curried tree: `curry_and_treehash` applied to
`calculate_hash_of_quoted_mod_hash` of the mod's tree hash and the tree
hashes of the arguments returns exactly the tree hash of
`curry mod args` (tree hashes are 32 bytes, so the length check
passes); and whenever some hashed argument is not exactly 32 bytes,
`curry_and_treehash` raises (returns `none`). -/
theorem curry_and_treehash_correct (sha : Bytes → Bytes)
    (hsha : ∀ x, (sha x).length = 32) (mod : Node) (args : List Node) :
    curry_and_treehash sha (calculate_hash_of_quoted_mod_hash sha (H_spec sha mod))
        (args.map (H_spec sha)) = some (H_spec sha (curry mod args)) ∧
    ∀ hqmh hargs, (∃ a ∈ hargs, a.length ≠ 32) →
      curry_and_treehash sha hqmh hargs = none := by
  constructor
  · have hall : (args.map (H_spec sha)).all (fun arg => arg.length = 32) = true := by
      rw [List.all_eq_true]
      intro x hx
      rw [List.mem_map] at hx
      obtain ⟨t, _, rfl⟩ := hx
      simp only [decide_eq_true_eq]
      exact H_spec_length sha hsha t
    rw [curry_and_treehash, if_pos hall, curried_values_tree_hash_eq]
    rfl
  · intro hqmh hargs ha
    obtain ⟨a, ham, hlen⟩ := ha
    have hf : hargs.all (fun arg => arg.length = 32) = false := by
      by_contra hcon
      have ht : hargs.all (fun arg => arg.length = 32) = true := by
        cases hx : hargs.all (fun arg => arg.length = 32)
        · exact absurd hx hcon
        · rfl
      rw [List.all_eq_true] at ht
      have := ht a ham
      simp only [decide_eq_true_eq] at this
      exact hlen this
    rw [curry_and_treehash, if_neg (by rw [hf]; simp)]

/-- Witness for C10: a 32-byte stand-in digest, `mod = nil`, one
argument, plus a rejected 31-byte hashed argument. -/
theorem curry_and_treehash_correct_witness :
    (curry_and_treehash (fun _ => List.replicate 32 0)
        (calculate_hash_of_quoted_mod_hash (fun _ => List.replicate 32 0)
          (H_spec (fun _ => List.replicate 32 0) (.atom [])))
        ([Node.atom [0x07]].map (H_spec (fun _ => List.replicate 32 0))) =
      some (H_spec (fun _ => List.replicate 32 0)
        (curry (.atom []) [Node.atom [0x07]]))) ∧
    curry_and_treehash (fun _ => List.replicate 32 0) [] [List.replicate 31 0] = none :=
  ⟨(curry_and_treehash_correct (fun _ => List.replicate 32 0)
      (fun _ => List.length_replicate 32 0) (.atom []) [Node.atom [0x07]]).1,
    (curry_and_treehash_correct (fun _ => List.replicate 32 0)
      (fun _ => List.length_replicate 32 0) (.atom []) [Node.atom [0x07]]).2
      [] [List.replicate 31 0] ⟨List.replicate 31 0, by simp, by simp⟩⟩

/-! ### Curry and uncurry (C9) -/

/-- Following a non-empty path strictly descends into the tree. -/
theorem at_path_count_lt (cs : List PathC) (c : PathC) :
    ∀ t u : Node, at_path t (c :: cs) = some u → u.count < t.count := by
  induction cs generalizing c with
  | nil =>
    intro t u h
    match t with
    | .atom a => simp [at_path] at h
    | .pair l r =>
      cases c <;> simp only [at_path, Option.some.injEq] at h <;> subst h <;>
        simp only [Node.count] <;> omega
  | cons c2 cs2 ih =>
    intro t u h
    match t with
    | .atom a => simp [at_path] at h
    | .pair l r =>
      cases c <;> simp only [at_path] at h
      · have := ih c2 l u h
        simp only [Node.count]
        omega
      · have := ih c2 r u h
        simp only [Node.count]
        omega


theorem Node.count_pos (t : Node) : 0 < t.count := by
  cases t <;> simp [Node.count]

theorem fixed_args_chain_cons (a : Node) (args : List Node) :
    fixed_args_chain (a :: args) =
      .pair (.atom [0x04])
        (.pair (.pair (.atom [0x01]) a) (.pair (fixed_args_chain args) (.atom []))) := rfl

/-- The uncurry loop undoes the `fixed_args` accumulation, given enough
fuel. -/
theorem uncurry_core_f_chain (args : List Node) :
    ∀ fuel, (fixed_args_chain args).count ≤ fuel →
      uncurry_core_f fuel (fixed_args_chain args) = some args := by
  induction args with
  | nil =>
    intro fuel hf
    have h1 : (fixed_args_chain []).count = 1 := by
      simp [fixed_args_chain, Node.count]
    rw [h1] at hf
    match fuel, hf with
    | 0, hf2 => omega
    | f + 1, _ => simp [uncurry_core_f, fixed_args_chain]
  | cons a as ih =>
    intro fuel hf
    have hc : (fixed_args_chain (a :: as)).count =
        7 + a.count + (fixed_args_chain as).count := by
      simp [fixed_args_chain_cons, Node.count, fixed_args_chain]
      omega
    rw [hc] at hf
    match fuel, hf with
    | 0, hf2 => omega
    | f + 1, hf =>
      rw [fixed_args_chain_cons]
      rw [uncurry_core_f]
      have hne : (Node.pair (.atom [0x04])
          (.pair (.pair (.atom [0x01]) a) (.pair (fixed_args_chain as) (.atom [])))) ≠
          Node.atom [0x01] := by simp
      rw [if_neg hne]
      simp only [at_path]
      simp only [reduceIte, ne_eq, not_true_eq_false, or_self, if_false]
      rw [ih f (by omega)]
      rfl

/-- Only `fixed_args` accumulations are accepted by the uncurry loop. -/
theorem uncurry_core_f_complete :
    ∀ fuel core as2, uncurry_core_f fuel core = some as2 →
      core = fixed_args_chain as2 := by
  intro fuel
  induction fuel with
  | zero =>
    intro core as2 h
    simp [uncurry_core_f] at h
  | succ f ih =>
    intro core as2 h
    rw [uncurry_core_f] at h
    by_cases h1 : core = Node.atom [0x01]
    · rw [if_pos h1] at h
      cases h
      exact h1
    · rw [if_neg h1] at h
      split at h
      · cases h
      · rename_i hchk
        push_neg at hchk
        obtain ⟨hf, hqf, hnr⟩ := hchk
        match core with
        | .atom b => simp [at_path] at hf
        | .pair c (.atom b) => simp [at_path] at hqf
        | .pair c (.pair (.atom b) rr) => simp [at_path] at hqf
        | .pair c (.pair (.pair q x) (.atom b)) => simp [at_path] at hnr
        | .pair c (.pair (.pair q x) (.pair rrf2 rrr2)) =>
          simp only [at_path, if_pos] at hf hqf hnr
          simp only [Option.some.injEq] at hf hqf hnr
          subst hf hqf hnr
          simp only [at_path, Option.some.injEq, reduceIte] at h
          match hrec : uncurry_core_f f rrf2 with
          | none => rw [hrec] at h; cases h
          | some as3 =>
            rw [hrec] at h
            simp only [Option.map, Option.bind, Option.some.injEq] at h
            subst h
            rw [ih rrf2 as3 hrec]
            rfl

/-- C9: `uncurry` inverts `curry`: `uncurry (curry mod args) = (mod,
some args)` (a zero-argument curry gives `(mod, some [])`); conversely
any tree on which `uncurry` succeeds is exactly a curried form, and any
tree not of the curry shape is returned unchanged paired with `none`. -/
theorem uncurry_curry_roundtrip :
    (∀ (mod : Node) (args : List Node), uncurry (curry mod args) = (mod, some args)) ∧
    (∀ (t m : Node) (args : List Node), uncurry t = (m, some args) → t = curry m args) ∧
    (∀ t : Node, (uncurry t).2 = none → (uncurry t).1 = t) := by
  refine ⟨?_, ?_, ?_⟩
  · intro mod args
    rw [curry, uncurry]
    simp only [at_path, Option.some.injEq, reduceIte, ne_eq, not_true_eq_false, or_self,
      if_false]
    rw [uncurry_core_f_chain args _ (Nat.le_refl _)]
  · intro t m args h
    rw [uncurry] at h
    split at h
    · cases h
    · rename_i hchk
      push_neg at hchk
      obtain ⟨hf, hqf, hnr⟩ := hchk
      match t with
      | .atom b => simp [at_path] at hf
      | .pair c (.atom b) => simp [at_path] at hqf
      | .pair c (.pair (.atom b) rr) => simp [at_path] at hqf
      | .pair c (.pair (.pair q x) (.atom b)) => simp [at_path] at hnr
      | .pair c (.pair (.pair q x) (.pair rrf2 rrr2)) =>
        simp only [at_path, if_pos] at hf hqf hnr
        simp only [Option.some.injEq] at hf hqf hnr
        subst hf hqf hnr
        simp only [at_path, Option.some.injEq, reduceIte] at h
        match hrec : uncurry_core_f rrf2.count rrf2 with
        | none => rw [hrec] at h; cases h
        | some as3 =>
          rw [hrec] at h
          cases h
          rw [uncurry_core_f_complete _ _ _ hrec]
          rfl
  · intro t h
    have hshape : uncurry t = (t, none) ∨ ∃ m2 as2, uncurry t = (m2, some as2) := by
      rw [uncurry]
      split
      · exact Or.inl rfl
      · split
        · split
          · exact Or.inr ⟨_, _, rfl⟩
          · exact Or.inl rfl
        · exact Or.inl rfl
    rcases hshape with he | ⟨m2, as2, he⟩
    · rw [he]
    · rw [he] at h
      cases h

/-- Witness for C9: a concrete curry of two arguments round-trips, and
the completeness direction applies to it. -/
theorem uncurry_curry_roundtrip_witness :
    curry (.atom [9]) [.atom [8], .pair (.atom [2]) (.atom [])] =
      curry (.atom [9]) [.atom [8], .pair (.atom [2]) (.atom [])] ∧
    (uncurry (.atom [7])).1 = .atom [7] :=
  ⟨uncurry_curry_roundtrip.2.1
      (curry (.atom [9]) [.atom [8], .pair (.atom [2]) (.atom [])])
      (.atom [9]) [.atom [8], .pair (.atom [2]) (.atom [])] (by decide),
   uncurry_curry_roundtrip.2.2 (.atom [7]) (by decide)⟩

/-! ### Evaluator determinism (C8) -/

/-- A complete evaluator run from a fixed state has a unique outcome:
the transition is a function of the state. -/
theorem evalRuns_det (tbl : OpTable) (max_cost : Nat) (st : EvalState) (o1 o2 : Outcome)
    (h1 : EvalRuns tbl max_cost st o1) (h2 : EvalRuns tbl max_cost st o2) : o1 = o2 := by
  induction h1 generalizing o2 with
  | done st o hstep =>
    cases h2 with
    | done _ _ hstep2 =>
      rw [hstep] at hstep2
      exact Sum.inr.inj hstep2
    | more _ st3 _ hstep2 _ =>
      rw [hstep] at hstep2
      cases hstep2
  | more st st2 o hstep _ ih =>
    cases h2 with
    | done _ _ hstep2 =>
      rw [hstep] at hstep2
      cases hstep2
    | more _ st3 _ hstep2 h3 =>
      rw [hstep] at hstep2
      cases hstep2
      exact ih _ h3

/-- C8: any two runs of the evaluator entry point
`run_serialized_program` on equal `(program_bytes, env_bytes, max_cost)`
inputs (and the same operator table, i.e. the same flag profile) produce
identical outcomes — the same cost and result tree, or the identical
error kind and payload. -/
theorem run_serialized_program_deterministic (tbl : OpTable) (pb ab : Bytes)
    (max_cost : Nat) (o1 o2 : Outcome)
    (h1 : run_serialized_program tbl pb ab max_cost o1)
    (h2 : run_serialized_program tbl pb ab max_cost o2) : o1 = o2 := by
  cases h1 with
  | parse_program_failed hp1 =>
    cases h2 with
    | parse_program_failed hp2 => rfl
    | parse_args_failed p rp hp2 ha2 => rw [hp1] at hp2
    | runs p rp e re o hp2 ha2 hr2 => rw [hp1] at hp2; cases hp2
  | parse_args_failed p rp hp1 ha1 =>
    cases h2 with
    | parse_program_failed hp2 => rw [hp1] at hp2
    | parse_args_failed q rq hp2 ha2 => rfl
    | runs q rq e re o hp2 ha2 hr2 => rw [ha1] at ha2; cases ha2
  | runs p rp e re o hp1 ha1 hr1 =>
    cases h2 with
    | parse_program_failed hp2 => rw [hp1] at hp2; cases hp2
    | parse_args_failed q rq hp2 ha2 => rw [ha1] at ha2; cases ha2
    | runs q rq e2 re2 o2x hp2 ha2 hr2 =>
      rw [hp1] at hp2
      rw [ha1] at ha2
      cases hp2
      cases ha2
      exact evalRuns_det _ _ _ _ _ hr1 hr2

/-- Witness for C8: the program `1` (the environment path) against a nil
environment runs to `(0, nil)` under an empty operator table, and the
theorem applies to two such runs. -/
theorem run_serialized_program_deterministic_witness :
    Outcome.ok 0 (Node.atom []) = Outcome.ok 0 (Node.atom []) :=
  run_serialized_program_deterministic ⟨fun _ _ => none, 1⟩ [0x01] [0x80] 100
    (Outcome.ok 0 (Node.atom [])) (Outcome.ok 0 (Node.atom []))
    (run_serialized_program.runs (Node.atom [0x01]) [] (Node.atom []) []
      (Outcome.ok 0 (Node.atom [])) (by decide) (by decide)
      (EvalRuns.more _ ⟨[], [Node.atom []], 0⟩ _ (by rfl)
        (EvalRuns.done _ _ (by decide))))
    (run_serialized_program.runs (Node.atom [0x01]) [] (Node.atom []) []
      (Outcome.ok 0 (Node.atom [])) (by decide) (by decide)
      (EvalRuns.more _ ⟨[], [Node.atom []], 0⟩ _ (by rfl)
        (EvalRuns.done _ _ (by decide))))

